import Mathlib

set_option maxRecDepth 2048

/-!
# Verification of the chaincoin wallet core (`src/wallet/wallet.h`)

This development gives a shallow embedding of the wallet data structures and
operations declared in `src/wallet/wallet.h` and proves properties of them.

Modelling conventions:

* C++ byte strings (`std::string`) are modelled as `List Nat` of byte values.
* `std::map<std::string, std::string>` (`mapValue_t`) is modelled as an
  association list sorted strictly by key (the representation invariant of
  `std::map`); `operator[]=` is `SMap.insert`, `erase` is `SMap.erase`,
  `count` is `SMap.mem`, lookup through `operator[]` is `SMap.lookup`.
* Machine integers: `int64_t` and `CAmount` are modelled as `Int`
  (no arithmetic in the modelled code paths overflows them);
  `unsigned int` fields that pass through a decimal-string round trip are
  modelled as `Fin 4294967296`; `uint256` values are modelled as `Nat`
  (only compared for equality / nullness).
* Serialization streams are modelled at the granularity of the C++ stream
  `operator<<` / `operator>>` calls: each shift of a typed value appends or
  consumes one typed token.  The embedded `CDataStream` inside
  `CAccountingEntry` comments is modelled at the byte level, because the
  code splices raw bytes into a string there.
-/

/-- Byte strings (`std::string` contents), as lists of byte values. -/
abbrev Str : Type := List Nat

namespace WalletModel

/-! ## Decimal printing and parsing

`i64tostr` and `atoi64` live in `utilstrencodings.h`, which is not part of
the wallet header.  Modelled from the spec: the serialization format stores
`order_pos` and `time_smart` as decimal strings; `i64tostr` renders a signed
64-bit integer in decimal and `atoi64` parses it back. -/
/-- Big-endian decimal digits, by fuel-bounded structural recursion (the
fuel `n + 1` always suffices since `n / 10 < n`). -/
def natToDigitsAux : Nat → Nat → List Nat
  | 0, _ => []
  | fuel + 1, n => if n < 10 then [n] else natToDigitsAux fuel (n / 10) ++ [n % 10]

/-- Big-endian decimal digits of a natural number (never empty: `0 ↦ [0]`). -/
def natToDigits (n : Nat) : List Nat :=
  natToDigitsAux (n + 1) n

/-- Value of a big-endian digit list. -/
def digitsToNat (ds : List Nat) : Nat :=
  ds.foldl (fun a d => a * 10 + d) 0

/-- Decimal rendering of a natural number as a byte string. -/
def natStr (n : Nat) : Str := (natToDigits n).map (· + 48)

/-- Parse a byte string of decimal digits. -/
def parseNat (s : Str) : Nat :=
  s.foldl (fun a c => a * 10 + (c - 48)) 0

/-- Modelled from the spec: `i64tostr` renders a signed integer in decimal. -/
def i64tostr (i : Int) : Str :=
  if i < 0 then 45 :: natStr i.natAbs else natStr i.toNat

/-- Modelled from the spec: `atoi64` parses a decimal byte string (possibly
with a leading minus sign) back into a signed integer. -/
def atoi64 (s : Str) : Int :=
  if s.head? = some 45 then - (parseNat s.tail : Int) else (parseNat s : Int)

/-! ## The `mapValue_t` model: key-sorted association lists -/
/-- An association list of byte-string pairs; the model of `mapValue_t`
(`std::map<std::string, std::string>`). -/
abbrev SMap : Type := List (Str × Str)

/-- The `std::map` representation invariant: keys strictly increasing. -/
def SMapSorted (m : SMap) : Prop := m.Pairwise (fun p q => p.1 < q.1)

instance : DecidablePred SMapSorted := fun m =>
  inferInstanceAs (Decidable (m.Pairwise _))

namespace SMap

/-- Embeds `m[k] = v` assignment: insert or overwrite, keeping keys sorted. -/
def insert (k v : Str) : SMap → SMap
  | [] => [(k, v)]
  | p :: m =>
    if k < p.1 then (k, v) :: p :: m
    else if p.1 < k then p :: insert k v m
    else (k, v) :: m

/-- Embeds `m.erase(k)` (on a sorted map at most one entry carries the key, so
erasing every occurrence coincides with `std::map::erase`). -/
def erase (k : Str) : SMap → SMap
  | [] => []
  | p :: m => if p.1 = k then erase k m else p :: erase k m

/-- Lookup of a key, `none` when absent. -/
def lookup (k : Str) : SMap → Option Str
  | [] => none
  | p :: m => if p.1 = k then some p.2 else lookup k m

/-- Embeds `m.count(k) ≠ 0`. -/
def mem (k : Str) (m : SMap) : Bool :=
  (lookup k m).isSome

end SMap

/-! ## Order-position serialization helpers (`wallet.h` 193–209) -/
/-- The map key `"n"`. -/
def kN : Str := [110]

/-- The map key `"fromaccount"`. -/
def kFromaccount : Str := [102, 114, 111, 109, 97, 99, 99, 111, 117, 110, 116]

/-- The map key `"timesmart"`. -/
def kTimesmart : Str := [116, 105, 109, 101, 115, 109, 97, 114, 116]

/-- The map key `"spent"`. -/
def kSpent : Str := [115, 112, 101, 110, 116]

/-- Embeds `ReadOrderPos` (`wallet.h` 193–201): `-1` when `"n"` is absent, otherwise
`atoi64` of the stored string. -/
def ReadOrderPos (mapValue : SMap) : Int :=
  if SMap.mem kN mapValue = true then atoi64 ((SMap.lookup kN mapValue).getD [])
  else -1

/-- Embeds `WriteOrderPos` (`wallet.h` 204–209): stores nothing for `-1`, otherwise
`mapValue["n"] = i64tostr(nOrderPos)`. -/
def WriteOrderPos (nOrderPos : Int) (mapValue : SMap) : SMap :=
  if nOrderPos = -1 then mapValue
  else SMap.insert kN (i64tostr nOrderPos) mapValue

/-! ## `CMerkleTx` (`wallet.h` 219–289) -/
/-- Modelled from the spec: the `ABANDON_HASH` sentinel used in `hashBlock`
to mark abandoned transactions.  Its value (the hash `0x...01`) is defined
in `wallet.cpp`, which is not under `src/`; the spec only requires it to be
a fixed sentinel distinct from the null hash, so the model uses `1`
(the null `uint256` being `0`). -/
def ABANDON_HASH : Nat := 1

/-- Embeds `CMerkleTx`: the underlying transaction (opaque reference), the hash of
the containing block and the position inside it. -/
structure CMerkleTx where
  tx : Nat
  hashBlock : Nat
  nIndex : Int
deriving DecidableEq

namespace CMerkleTx

/-- Embeds `CMerkleTx::Init` (`wallet.h` 248–252). -/
def Init (m : CMerkleTx) : CMerkleTx :=
  { m with hashBlock := 0, nIndex := -1 }

/-- Embeds `CMerkleTx::hashUnset` (`wallet.h` 282). -/
def hashUnset (m : CMerkleTx) : Bool :=
  m.hashBlock == 0 || m.hashBlock == ABANDON_HASH

/-- Embeds `CMerkleTx::isAbandoned` (`wallet.h` 283). -/
def isAbandoned (m : CMerkleTx) : Bool :=
  m.hashBlock == ABANDON_HASH

/-- Embeds `CMerkleTx::setAbandoned` (`wallet.h` 284). -/
def setAbandoned (m : CMerkleTx) : CMerkleTx :=
  { m with hashBlock := ABANDON_HASH }

end CMerkleTx

/-! ## `CWalletTx` (`wallet.h` 298–524) -/
/-- Embeds `CWalletTx`: a `CMerkleTx` plus owner-only metadata and the mutable
balance caches.  The `char fFromMe` flag is modelled as `Bool`;
`unsigned int nTimeSmart` is modelled as `Fin 4294967296` because it passes
through a decimal-string round trip. -/
structure CWalletTx extends CMerkleTx where
  mapValue : SMap
  vOrderForm : List (Str × Str)
  fTimeReceivedIsTxTime : Nat
  nTimeReceived : Nat
  nTimeSmart : Fin 4294967296
  fFromMe : Bool
  strFromAccount : Str
  nOrderPos : Int
  fDebitCached : Bool
  fCreditCached : Bool
  fImmatureCreditCached : Bool
  fAvailableCreditCached : Bool
  fAnonymizedCreditCached : Bool
  fDenomUnconfCreditCached : Bool
  fDenomConfCreditCached : Bool
  fWatchDebitCached : Bool
  fWatchCreditCached : Bool
  fImmatureWatchCreditCached : Bool
  fAvailableWatchCreditCached : Bool
  fChangeCached : Bool
  fInMempool : Bool
  nDebitCached : Int
  nCreditCached : Int
  nImmatureCreditCached : Int
  nAvailableCreditCached : Int
  nAnonymizedCreditCached : Int
  nDenomUnconfCreditCached : Int
  nDenomConfCreditCached : Int
  nWatchDebitCached : Int
  nWatchCreditCached : Int
  nImmatureWatchCreditCached : Int
  nAvailableWatchCreditCached : Int
  nChangeCached : Int
deriving DecidableEq

namespace CWalletTx

/-- Embeds `CWalletTx::MarkDirty` (`wallet.h` 460–474): resets the twelve cache
validity flags, exactly the ones the source lists. -/
def MarkDirty (w : CWalletTx) : CWalletTx :=
  { w with
    fCreditCached := false
    fAvailableCreditCached := false
    fImmatureCreditCached := false
    fAnonymizedCreditCached := false
    fDenomUnconfCreditCached := false
    fDenomConfCreditCached := false
    fWatchDebitCached := false
    fWatchCreditCached := false
    fAvailableWatchCreditCached := false
    fImmatureWatchCreditCached := false
    fDebitCached := false
    fChangeCached := false }

end CWalletTx

/-! ## `CWalletTx` serialization (`wallet.h` 261–268 and 422–457)

The stream is modelled one token per C++ `operator<<` / `operator>>` of a
typed value.  `strprintf("%u", …)` is rendering an unsigned decimal; it
lives in `tinyformat.h`, not under `src/`, and is modelled from the spec as
`natStr`. -/
/-- One serialization-stream token. -/
inductive Tok where
  | txRef (t : Nat)
  | u256 (h : Nat)
  | vecU256 (v : List Nat)
  | i32 (n : Int)
  | vecMTx (v : List CMerkleTx)
  | mp (m : SMap)
  | vps (v : List (Str × Str))
  | u32 (n : Nat)
  | i64 (n : Int)
  | str (s : Str)
  | ch (c : Nat)
deriving DecidableEq

/-- The C cast `(unsigned int)` applied to a signed 64-bit value. -/
def uintCast (i : Int) : Fin 4294967296 :=
  ⟨(i % 4294967296).toNat, by
    have h1 : 0 ≤ i % 4294967296 := Int.emod_nonneg i (by norm_num)
    have h2 : i % 4294967296 < 4294967296 := Int.emod_lt_of_pos i (by norm_num)
    omega⟩

/-- The temporary `mapValueCopy` built by `CWalletTx::Serialize`
(`wallet.h` 426–432): `"fromaccount"` is set unconditionally, `"n"` only
when `nOrderPos ≠ -1` (via `WriteOrderPos`), `"timesmart"` only when
`nTimeSmart` is nonzero. -/
def wtxMapValueCopy (w : CWalletTx) : SMap :=
  if w.nTimeSmart.val ≠ 0 then
    SMap.insert kTimesmart (natStr w.nTimeSmart.val)
      (WriteOrderPos w.nOrderPos (SMap.insert kFromaccount w.strFromAccount w.mapValue))
  else
    WriteOrderPos w.nOrderPos (SMap.insert kFromaccount w.strFromAccount w.mapValue)

/-- Embeds `CWalletTx::Serialize` (`wallet.h` 422–437), parametrized by the byte
actually written for the legacy `fSpent` flag (the code always passes 0).
The `CMerkleTx` sub-object contributes the first four tokens
(`wallet.h` 261–268), with the compatibility merkle branch written empty;
`vUnused` is the legacy empty `vtxPrev`. -/
def CWalletTx.SerializeSpent (w : CWalletTx) (fSpent : Nat) : List Tok :=
  [Tok.txRef w.tx, Tok.u256 w.hashBlock, Tok.vecU256 [], Tok.i32 w.nIndex,
   Tok.vecMTx [], Tok.mp (wtxMapValueCopy w), Tok.vps w.vOrderForm,
   Tok.u32 w.fTimeReceivedIsTxTime, Tok.u32 w.nTimeReceived,
   Tok.ch (if w.fFromMe then 1 else 0), Tok.ch fSpent]

/-- Embeds `CWalletTx::Serialize` with the `fSpent` byte the code writes: 0. -/
def CWalletTx.Serialize (w : CWalletTx) : List Tok :=
  CWalletTx.SerializeSpent w 0

/-- Embeds `CWalletTx::Unserialize` (`wallet.h` 439–457): `Init(nullptr)` resets
all non-stream fields (caches, `fInMempool`), the stream fields are read
back, the account / order-pos / time-smart values are extracted from the
map and the four reserved keys are erased.  The legacy merkle branch,
`vtxPrev` vector and `fSpent` byte are read and discarded. -/
def CWalletTx.Unserialize : List Tok → Option (CWalletTx × List Tok)
  | Tok.txRef t :: Tok.u256 hb :: Tok.vecU256 _ :: Tok.i32 ni :: Tok.vecMTx _ ::
      Tok.mp m :: Tok.vps vof :: Tok.u32 ftr :: Tok.u32 ntr ::
      Tok.ch ff :: Tok.ch _ :: rest =>
    some ({ tx := t
            hashBlock := hb
            nIndex := ni
            mapValue := SMap.erase kTimesmart (SMap.erase kN
              (SMap.erase kSpent (SMap.erase kFromaccount m)))
            vOrderForm := vof
            fTimeReceivedIsTxTime := ftr
            nTimeReceived := ntr
            nTimeSmart :=
              if SMap.mem kTimesmart m = true then
                uintCast (atoi64 ((SMap.lookup kTimesmart m).getD []))
              else ⟨0, by norm_num⟩
            fFromMe := decide (ff ≠ 0)
            strFromAccount := (SMap.lookup kFromaccount m).getD []
            nOrderPos := ReadOrderPos m
            fDebitCached := false
            fCreditCached := false
            fImmatureCreditCached := false
            fAvailableCreditCached := false
            fAnonymizedCreditCached := false
            fDenomUnconfCreditCached := false
            fDenomConfCreditCached := false
            fWatchDebitCached := false
            fWatchCreditCached := false
            fImmatureWatchCreditCached := false
            fAvailableWatchCreditCached := false
            fChangeCached := false
            fInMempool := false
            nDebitCached := 0
            nCreditCached := 0
            nImmatureCreditCached := 0
            nAvailableCreditCached := 0
            nAnonymizedCreditCached := 0
            nDenomUnconfCreditCached := 0
            nDenomConfCreditCached := 0
            nWatchDebitCached := 0
            nWatchCreditCached := 0
            nImmatureWatchCreditCached := 0
            nAvailableWatchCreditCached := 0
            nChangeCached := 0 }, rest)
  | _ => none

/-- A concrete wallet transaction with all fields zeroed, used to build
example inputs. -/
def wtx0 : CWalletTx :=
  { tx := 0
    hashBlock := 0
    nIndex := -1
    mapValue := []
    vOrderForm := []
    fTimeReceivedIsTxTime := 0
    nTimeReceived := 0
    nTimeSmart := ⟨0, by norm_num⟩
    fFromMe := false
    strFromAccount := []
    nOrderPos := -1
    fDebitCached := false
    fCreditCached := false
    fImmatureCreditCached := false
    fAvailableCreditCached := false
    fAnonymizedCreditCached := false
    fDenomUnconfCreditCached := false
    fDenomConfCreditCached := false
    fWatchDebitCached := false
    fWatchCreditCached := false
    fImmatureWatchCreditCached := false
    fAvailableWatchCreditCached := false
    fChangeCached := false
    fInMempool := false
    nDebitCached := 0
    nCreditCached := 0
    nImmatureCreditCached := 0
    nAvailableCreditCached := 0
    nAnonymizedCreditCached := 0
    nDenomUnconfCreditCached := 0
    nDenomConfCreditCached := 0
    nWatchDebitCached := 0
    nWatchCreditCached := 0
    nImmatureWatchCreditCached := 0
    nAvailableWatchCreditCached := 0
    nChangeCached := 0 }

/-- A wallet transaction that is currently flagged as present in the
mempool, with all cache-validity flags set. -/
def c1wtx : CWalletTx :=
  { wtx0 with
    fInMempool := true
    fDebitCached := true
    fCreditCached := true
    fImmatureCreditCached := true
    fAvailableCreditCached := true
    fAnonymizedCreditCached := true
    fDenomUnconfCreditCached := true
    fDenomConfCreditCached := true
    fWatchDebitCached := true
    fWatchCreditCached := true
    fImmatureWatchCreditCached := true
    fAvailableWatchCreditCached := true
    fChangeCached := true
    nDebitCached := 11 }

/-- A wallet transaction whose user-level map carries the reserved key
`"n"` (value `"7"`) while `nOrderPos = -1`. -/
def c4wtx : CWalletTx :=
  { wtx0 with mapValue := [(kN, [55])] }

/-- A generic wallet transaction exercising every serialized field. -/
def c4wit : CWalletTx :=
  { wtx0 with
    tx := 42
    hashBlock := 7
    nIndex := 3
    mapValue := [([97], [98])]
    vOrderForm := [([1], [2])]
    fTimeReceivedIsTxTime := 1
    nTimeReceived := 77
    nTimeSmart := ⟨123, by norm_num⟩
    fFromMe := true
    strFromAccount := [120]
    nOrderPos := 5 }

/-! ## `WalletRescanReserver` (`wallet.h` 708–711 and 1336–1368)

The wallet holds a single `fScanningWallet` flag; every live
`WalletRescanReserver` holds a `m_could_reserve` flag.  The model keeps the
wallet flag together with the list of the live reservers' flags and runs
sequences of constructor / `reserve` / destructor calls (each call runs
under `mutexScanning`, so calls are serialized exactly as in this model). -/
/-- The rescan-reservation state: `fScanningWallet` plus the
`m_could_reserve` flag of each live reserver (by creation order). -/
structure RescanState where
  fScanningWallet : Bool
  reservers : List Bool
deriving DecidableEq

/-- One constructor, `reserve()` or destructor call on a reserver. -/
inductive RescanOp where
  | mkReserver
  | reserve (i : Nat)
  | destroy (i : Nat)
deriving DecidableEq

/-- Embeds `WalletRescanReserver::reserve` (`wallet.h` 1344–1354): asserts
`!m_could_reserve` (modelled as failure of the trace), returns false
without touching anything if `fScanningWallet` is set, otherwise sets both
flags and returns true. -/
def rescanReserve (s : RescanState) (i : Nat) : Option (RescanState × Bool) :=
  match s.reservers.get? i with
  | none => none
  | some could =>
    if could then none
    else if s.fScanningWallet then some (s, false)
    else some ({ fScanningWallet := true, reservers := s.reservers.set i true }, true)

/-- Embeds `WalletRescanReserver::~WalletRescanReserver` (`wallet.h` 1361–1367):
clears `fScanningWallet` iff this reserver could reserve, and removes the
reserver. -/
def rescanDestroy (s : RescanState) (i : Nat) : Option RescanState :=
  match s.reservers.get? i with
  | none => none
  | some could =>
    some { fScanningWallet := if could then false else s.fScanningWallet
           reservers := s.reservers.eraseIdx i }

/-- One step of the reservation system; the constructor
(`wallet.h` 1342) starts with `m_could_reserve = false`. -/
def rescanStep (s : RescanState) : RescanOp → Option RescanState
  | RescanOp.mkReserver => some { s with reservers := s.reservers ++ [false] }
  | RescanOp.reserve i => (rescanReserve s i).map Prod.fst
  | RescanOp.destroy i => rescanDestroy s i

/-- Run a sequence of reservation operations. -/
def rescanRun : RescanState → List RescanOp → Option RescanState
  | s, [] => some s
  | s, op :: ops =>
    match rescanStep s op with
    | none => none
    | some s' => rescanRun s' ops

/-- The initial state: flag clear (`CWallet::SetNull`, `wallet.h` 868),
no reservers. -/
def rescanInit : RescanState := { fScanningWallet := false, reservers := [] }

/-- The reservation invariant: at most one live reserver could reserve, and
none could while the wallet flag is clear. -/
def RescanInv (s : RescanState) : Prop :=
  s.reservers.count true ≤ 1 ∧
  (s.fScanningWallet = false → s.reservers.count true = 0)

/-- A concrete operation sequence: two reservers are created, the first
reserves (successfully), the second tries and fails, the first is
destroyed. -/
def c6ops : List RescanOp :=
  [RescanOp.mkReserver, RescanOp.reserve 0, RescanOp.mkReserver,
   RescanOp.reserve 1, RescanOp.destroy 0]

/-! ## The keypool (`wallet.h` 766–769, 1081–1093, 1142–1146, 1261–1290)

The keypool operations (`NewKeyPool`, `TopUpKeyPool`,
`ReserveKeyFromKeyPool`, `KeepKey`, `ReturnKey`, `MarkReserveKeysAsUsed`,
`LoadKeyPool`) are implemented in `wallet.cpp`, which is not under `src/`.
Modelled from the spec (§4.2): the wallet keeps two ordered index sets
(external and internal) and a high-water mark `m_max_keypool_index`;
`top_up` derives fresh monotonically increasing indices, `reserve` pops
the lowest index of the requested set (falling back to the other set, and
reporting which set the entry came from), `keep` consumes the reserved
index, `return` re-inserts it into the set it came from, `mark_used`
deletes every pool index `≤` the given one, and `LoadKeyPool` re-inserts
one persisted entry and raises the high-water mark. -/
/-- Embeds `std::set<int64_t>` model: a strictly sorted list of indices. -/
abbrev NSet : Type := List Nat

/-- The `std::set` representation invariant. -/
def NSetSorted (s : NSet) : Prop := s.Pairwise (· < ·)

instance : DecidablePred NSetSorted := fun s =>
  inferInstanceAs (Decidable (s.Pairwise _))

namespace NSet

/-- Sorted, idempotent insertion. -/
def insert (x : Nat) : NSet → NSet
  | [] => [x]
  | y :: s => if x < y then x :: y :: s else if y < x then y :: insert x s else y :: s

end NSet

/-- The keypool portion of the wallet state (`wallet.h` 766–769). -/
structure KeypoolState where
  setExternalKeyPool : NSet
  setInternalKeyPool : NSet
  m_max_keypool_index : Nat
deriving DecidableEq

/-- Embeds `CWallet::GetKeyPoolSize` (`wallet.h` 1142–1146). -/
def GetKeyPoolSize (s : KeypoolState) : Nat :=
  s.setInternalKeyPool.length + s.setExternalKeyPool.length

/-- Modelled from the spec: derive one fresh key on the chosen chain; the
new index is the next value above the high-water mark. -/
def genKey (fInternal : Bool) (s : KeypoolState) : KeypoolState :=
  if fInternal then
    { s with setInternalKeyPool := NSet.insert (s.m_max_keypool_index + 1) s.setInternalKeyPool
             m_max_keypool_index := s.m_max_keypool_index + 1 }
  else
    { s with setExternalKeyPool := NSet.insert (s.m_max_keypool_index + 1) s.setExternalKeyPool
             m_max_keypool_index := s.m_max_keypool_index + 1 }

/-- Generate `n` fresh keys on one chain. -/
def genKeys (fInternal : Bool) : Nat → KeypoolState → KeypoolState
  | 0, s => s
  | n + 1, s => genKeys fInternal n (genKey fInternal s)

/-- Modelled from the spec: `CWallet::TopUpKeyPool` generates keys on each
chain until both pools reach the target size. -/
def TopUpKeyPool (target : Nat) (s : KeypoolState) : KeypoolState :=
  genKeys true (target - s.setInternalKeyPool.length)
    (genKeys false (target - s.setExternalKeyPool.length) s)

/-- Modelled from the spec: `CWallet::NewKeyPool` empties both pools and
tops up. -/
def NewKeyPool (target : Nat) (s : KeypoolState) : KeypoolState :=
  TopUpKeyPool target { s with setExternalKeyPool := [], setInternalKeyPool := [] }

/-- Modelled from the spec: `CWallet::ReserveKeyFromKeyPool` pops the
lowest index from the requested set, falling back to the other set when
the requested one is empty; the returned flag reports the set the entry
was drawn from (the entry's `fInternal`).  `none` models the sentinel
returned when both pools are empty. -/
def ReserveKeyFromKeyPool (s : KeypoolState) (fRequestedInternal : Bool) :
    Option ((Nat × Bool) × KeypoolState) :=
  if fRequestedInternal then
    match s.setInternalKeyPool with
    | i :: rest => some ((i, true), { s with setInternalKeyPool := rest })
    | [] =>
      match s.setExternalKeyPool with
      | i :: rest => some ((i, false), { s with setExternalKeyPool := rest })
      | [] => none
  else
    match s.setExternalKeyPool with
    | i :: rest => some ((i, false), { s with setExternalKeyPool := rest })
    | [] =>
      match s.setInternalKeyPool with
      | i :: rest => some ((i, true), { s with setInternalKeyPool := rest })
      | [] => none

/-- Modelled from the spec: `CWallet::ReturnKey` re-inserts a reserved
index into the set recorded at reservation time. -/
def ReturnKey (nIndex : Nat) (fInternal : Bool) (s : KeypoolState) : KeypoolState :=
  if fInternal then
    { s with setInternalKeyPool := NSet.insert nIndex s.setInternalKeyPool }
  else
    { s with setExternalKeyPool := NSet.insert nIndex s.setExternalKeyPool }

/-- Modelled from the spec: `CWallet::KeepKey` erases the reserved entry
from the database; the in-memory pools were already updated at
reservation time. -/
def KeepKey (_nIndex : Nat) (s : KeypoolState) : KeypoolState := s

/-- Modelled from the spec: `CWallet::MarkReserveKeysAsUsed` deletes every
pool entry with index `≤ keypool_id` from both sets. -/
def MarkReserveKeysAsUsed (keypoolId : Nat) (s : KeypoolState) : KeypoolState :=
  { s with
    setExternalKeyPool := s.setExternalKeyPool.filter (fun y => decide (keypoolId < y))
    setInternalKeyPool := s.setInternalKeyPool.filter (fun y => decide (keypoolId < y)) }

/-- Modelled from the spec: `CWallet::LoadKeyPool` re-inserts one persisted
pool record into the set selected by its `fInternal` flag and raises the
high-water mark. -/
def LoadKeyPool (nIndex : Nat) (fInternal : Bool) (s : KeypoolState) : KeypoolState :=
  if fInternal then
    { s with setInternalKeyPool := NSet.insert nIndex s.setInternalKeyPool
             m_max_keypool_index := max s.m_max_keypool_index nIndex }
  else
    { s with setExternalKeyPool := NSet.insert nIndex s.setExternalKeyPool
             m_max_keypool_index := max s.m_max_keypool_index nIndex }

/-- The `CReserveKey` handle (`wallet.h` 1262–1290): the reserved index
(`-1` modelled as `none`) and the chain it came from. -/
structure CReserveKey where
  nIndex : Option Nat
  fInternal : Bool
deriving DecidableEq

/-- Embeds `CReserveKey::~CReserveKey` (`wallet.h` 1281–1284): returns the
reserved key, if any, to the pool; `KeepKey` was not called. -/
def dropReserveKeyHandle (r : CReserveKey) (s : KeypoolState) : KeypoolState :=
  match r.nIndex with
  | none => s
  | some i => ReturnKey i r.fInternal s

/-- A concrete keypool: external indices 2 and 5, internal index 7. -/
def c7s : KeypoolState :=
  { setExternalKeyPool := [2, 5], setInternalKeyPool := [7], m_max_keypool_index := 10 }

/-- The same keypool after the external index 2 has been reserved. -/
def c7sAfter : KeypoolState :=
  { setExternalKeyPool := [5], setInternalKeyPool := [7], m_max_keypool_index := 10 }

/-! ## Keypool trace invariant (C8) -/
/-- The keypool invariant: both sets obey the `std::set` representation
invariant, they are disjoint, and every index is at most the high-water
mark. -/
def KPInv (s : KeypoolState) : Prop :=
  NSetSorted s.setExternalKeyPool ∧ NSetSorted s.setInternalKeyPool ∧
  (∀ x ∈ s.setExternalKeyPool, x ∉ s.setInternalKeyPool) ∧
  (∀ x ∈ s.setExternalKeyPool, x ≤ s.m_max_keypool_index) ∧
  (∀ x ∈ s.setInternalKeyPool, x ≤ s.m_max_keypool_index)

/-- One keypool operation. -/
inductive KPOp where
  | newKeyPool (target : Nat)
  | topUpKeyPool (target : Nat)
  | reserveKey (fRequestedInternal : Bool)
  | keepKey (i : Nat)
  | returnKey (i : Nat) (fInternal : Bool)
  | markUsed (i : Nat)
  | load (i : Nat) (fInternal : Bool)
deriving DecidableEq

/-- One step of the keypool system.  `returnKey` is only legal for an
index that was reserved from the named set (so it cannot sit in the other
set), and `load` only for a fresh database record (pool records are keyed
by index, so an index cannot be inserted into both sets); illegal calls
fail the trace.  A reserve on two empty pools returns the sentinel and
changes nothing. -/
def kpStep (s : KeypoolState) : KPOp → Option KeypoolState
  | KPOp.newKeyPool t => some (NewKeyPool t s)
  | KPOp.topUpKeyPool t => some (TopUpKeyPool t s)
  | KPOp.reserveKey req =>
    match ReserveKeyFromKeyPool s req with
    | some (_, s') => some s'
    | none => some s
  | KPOp.keepKey i => some (KeepKey i s)
  | KPOp.returnKey i f =>
    if f then
      if i ∈ s.setExternalKeyPool ∨ s.m_max_keypool_index < i then none
      else some (ReturnKey i f s)
    else
      if i ∈ s.setInternalKeyPool ∨ s.m_max_keypool_index < i then none
      else some (ReturnKey i f s)
  | KPOp.markUsed i => some (MarkReserveKeysAsUsed i s)
  | KPOp.load i f =>
    if f then
      if i ∈ s.setExternalKeyPool then none else some (LoadKeyPool i f s)
    else
      if i ∈ s.setInternalKeyPool then none else some (LoadKeyPool i f s)

/-- Run a sequence of keypool operations. -/
def kpRun : KeypoolState → List KPOp → Option KeypoolState
  | s, [] => some s
  | s, op :: ops =>
    match kpStep s op with
    | none => none
    | some s' => kpRun s' ops

/-- The initial keypool state (`CWallet::SetNull`, `wallet.h` 859). -/
def kpInit : KeypoolState :=
  { setExternalKeyPool := [], setInternalKeyPool := [], m_max_keypool_index := 0 }

/-- A concrete keypool trace: fill both pools to two entries each, reserve
an external key, mark indices up to 1 used, load a persisted record. -/
def c8ops : List KPOp :=
  [KPOp.newKeyPool 2, KPOp.reserveKey false, KPOp.markUsed 1, KPOp.load 9 true]

/-! ## The spend index (`wallet.h` 739–748, 1013–1018; C2)

`AddToWallet`, `LoadToWallet`, `AddToSpends`, `MarkConflicted`,
`AbandonTransaction` and the block-connected/disconnected handlers are
implemented in `wallet.cpp`, which is not under `src/`.  Modelled from the
spec (§4.4–4.6): inserting a WalletTx adds each input's outpoint to the
spend multimap keyed by the spending transaction's id; block connect /
disconnect, conflict marking and abandoning only rewrite the block linkage
of existing records (a transaction id determines its inputs, so an upsert
of a known id never changes the inputs). -/
/-- An outpoint `(transaction id, output index)`. -/
structure OutPoint where
  txid : Nat
  n : Nat
deriving DecidableEq

/-- The spend-index-relevant part of a wallet transaction: id, the
outpoints its inputs spend, and the block linkage. -/
structure WTx where
  txid : Nat
  vin : List OutPoint
  hashBlock : Nat
  nIndex : Int
deriving DecidableEq

/-- The wallet transaction table plus the spend index `mapTxSpends`. -/
structure WalletState where
  mapWallet : List WTx
  mapTxSpends : List (OutPoint × Nat)
deriving DecidableEq

/-- Embeds `mapWallet.count(hash)`-style lookup. -/
def lookupWallet (s : WalletState) (h : Nat) : Option WTx :=
  s.mapWallet.find? (fun t => t.txid == h)

/-- Embeds `CWallet::AddToSpends(wtxid)` (declared `wallet.h` 746–747): insert
`(outpoint, wtxid)` for every input of the transaction. -/
def AddToSpends (t : WTx) (sp : List (OutPoint × Nat)) : List (OutPoint × Nat) :=
  sp ++ t.vin.map (fun o => (o, t.txid))

/-- Rewrite the block linkage of the transaction with the given id. -/
def setStatus (h : Nat) (hb : Nat) (ni : Int) (s : WalletState) : WalletState :=
  { s with mapWallet :=
      s.mapWallet.map (fun t =>
        if t.txid = h then { t with hashBlock := hb, nIndex := ni } else t) }

/-- Modelled from the spec: `CWallet::AddToWallet` upserts: a new id is
appended and its inputs are indexed; a known id only has its block linkage
updated.  -/
def AddToWallet (t : WTx) (s : WalletState) : WalletState :=
  if (lookupWallet s t.txid).isSome = true then
    setStatus t.txid t.hashBlock t.nIndex s
  else
    { mapWallet := s.mapWallet ++ [t], mapTxSpends := AddToSpends t s.mapTxSpends }

/-- Modelled from the spec: `CWallet::LoadToWallet` inserts a persisted
record and indexes its spends, like `AddToWallet` without the database
write. -/
def LoadToWallet (t : WTx) (s : WalletState) : WalletState :=
  AddToWallet t s

/-- The transactions spending an output of `h`, per the spend index. -/
def spendersOf (sp : List (OutPoint × Nat)) (h : Nat) : List Nat :=
  (sp.filter (fun p => p.1.txid == h)).map Prod.snd

/-- The forward closure of a transaction over the spend index
(`tx → its outputs → their spenders`), fuel-bounded worklist. -/
def spendClosure (sp : List (OutPoint × Nat)) : Nat → List Nat → List Nat → List Nat
  | 0, _, acc => acc
  | _ + 1, [], acc => acc
  | fuel + 1, h :: rest, acc =>
    if h ∈ acc then spendClosure sp fuel rest acc
    else spendClosure sp fuel (rest ++ spendersOf sp h) (h :: acc)

/-- Modelled from the spec: `CWallet::MarkConflicted` sets the block hash
of the transaction and of its in-wallet spend-closure descendants to the
conflicting block, with `nIndex = -1`. -/
def MarkConflicted (hashBlock : Nat) (hashTx : Nat) (s : WalletState) : WalletState :=
  let cl := spendClosure s.mapTxSpends
    (s.mapWallet.length + s.mapTxSpends.length + 1) [hashTx] []
  { s with mapWallet :=
      s.mapWallet.map (fun t =>
        if t.txid ∈ cl then { t with hashBlock := hashBlock, nIndex := -1 } else t) }

/-- Modelled from the spec: `CWallet::AbandonTransaction` walks the same
closure and sets each descendant's block hash to the `ABANDON_HASH`
sentinel. -/
def AbandonTransaction (hashTx : Nat) (s : WalletState) : WalletState :=
  let cl := spendClosure s.mapTxSpends
    (s.mapWallet.length + s.mapTxSpends.length + 1) [hashTx] []
  { s with mapWallet :=
      s.mapWallet.map (fun t =>
        if t.txid ∈ cl then { t with hashBlock := ABANDON_HASH, nIndex := -1 } else t) }

/-- Modelled from the spec: `CWallet::BlockConnected` first marks the
conflicted transactions against the block, then upserts each relevant
transaction of the block. -/
def BlockConnected (bh : Nat) (txs : List WTx) (conflicted : List Nat)
    (s : WalletState) : WalletState :=
  txs.foldl (fun st t => AddToWallet t st)
    (conflicted.foldl (fun st h => MarkConflicted bh h st) s)

/-- Modelled from the spec: `CWallet::BlockDisconnected` resets each of the
block's transactions to unconfirmed (`hashBlock = null`, `nIndex = -1`). -/
def BlockDisconnected (txids : List Nat) (s : WalletState) : WalletState :=
  txids.foldl (fun st h => setStatus h 0 (-1) st) s

/-- One wallet operation touching the transaction table. -/
inductive WOp where
  | add (t : WTx)
  | load (t : WTx)
  | connect (bh : Nat) (txs : List WTx) (conflicted : List Nat)
  | disconnect (txids : List Nat)
  | abandon (h : Nat)
  | conflict (bh : Nat) (h : Nat)

/-- One step of the wallet system. -/
def wStep (s : WalletState) : WOp → WalletState
  | WOp.add t => AddToWallet t s
  | WOp.load t => LoadToWallet t s
  | WOp.connect bh txs conflicted => BlockConnected bh txs conflicted s
  | WOp.disconnect txids => BlockDisconnected txids s
  | WOp.abandon h => AbandonTransaction h s
  | WOp.conflict bh h => MarkConflicted bh h s

/-- Run a sequence of wallet operations from the empty wallet. -/
def wRun (ops : List WOp) : WalletState :=
  ops.foldl wStep { mapWallet := [], mapTxSpends := [] }

/-- Spend-index completeness: every outpoint referenced by any input of any
wallet transaction appears in `mapTxSpends` mapped to that transaction. -/
def SpendIndexComplete (s : WalletState) : Prop :=
  ∀ t ∈ s.mapWallet, ∀ o ∈ t.vin, (o, t.txid) ∈ s.mapTxSpends

/-- A concrete trace: one transaction spending outpoint `(5,0)` is added,
a block containing it is connected, then disconnected. -/
def c2ops : List WOp :=
  [WOp.add { txid := 7, vin := [{ txid := 5, n := 0 }], hashBlock := 0, nIndex := -1 },
   WOp.connect 99
     [{ txid := 7, vin := [{ txid := 5, n := 0 }], hashBlock := 99, nIndex := 0 }] [],
   WOp.disconnect [7]]

/-! ## Balance decomposition (`wallet.h` 486–512, 1026; C3)

`CWallet::GetBalance`, `CWalletTx::GetAvailableCredit` and
`CWalletTx::IsTrusted` are implemented in `wallet.cpp`, which is not under
`src/`.  Modelled from the spec (§4.7): `GetBalance` accumulates the
available credit of every trusted wallet transaction; a transaction is
trusted iff it is confirmed (depth ≥ 1), or it is from me, unconfirmed
(depth 0; a negative depth means a conflict, `wallet.h` 272–277), present
in the mempool, and every input's in-wallet parent is confirmed or itself
trusted.  The self-referential trust condition is computed by fuel-bounded
iteration; the fuel `|mapWallet| + 1` reaches the least fixpoint (proved
below), so `IsTrusted` satisfies exactly the spec's recursive equation. -/
/-- The balance-relevant part of a wallet transaction.  `nDepth` is the
`GetDepthInMainChain` value; `availableCredit` the `GetAvailableCredit`
amount. -/
structure BTx where
  txid : Nat
  vin : List OutPoint
  nDepth : Int
  fromMe : Bool
  inMempool : Bool
  availableCredit : Int
deriving DecidableEq

/-- The wallet transaction table as seen by the balance engine. -/
structure BWallet where
  mapWallet : List BTx
deriving DecidableEq

/-- Embeds `CWallet::GetWalletTx`: look a transaction up by id. -/
def GetWalletTx (w : BWallet) (h : Nat) : Option BTx :=
  w.mapWallet.find? (fun t => t.txid == h)

/-- Modelled from the spec: the trust predicate, iterated `fuel` times. -/
def IsTrustedAux (w : BWallet) : Nat → BTx → Bool
  | 0, _ => false
  | fuel + 1, t =>
    if 1 ≤ t.nDepth then true
    else if t.nDepth < 0 then false
    else
      t.fromMe && t.inMempool &&
        t.vin.all (fun o =>
          match GetWalletTx w o.txid with
          | none => false
          | some p => decide (1 ≤ p.nDepth) || IsTrustedAux w fuel p)

/-- Modelled from the spec: `CWalletTx::IsTrusted`. -/
def IsTrusted (w : BWallet) (t : BTx) : Bool :=
  IsTrustedAux w (w.mapWallet.length + 1) t

/-- Modelled from the spec: `CWallet::GetBalance` accumulates the
available credit of the trusted wallet transactions. -/
def GetBalance (w : BWallet) : Int :=
  w.mapWallet.foldl (fun acc t => if IsTrusted w t then acc + t.availableCredit else acc) 0

/-! ## `CAccountingEntry` serialization (`wallet.h` 599–676; C9)

The outer stream is token-level; the embedded `CDataStream` spliced into
the comment string is byte-level.  The Bitcoin serialization primitives
(`WriteCompactSize`/`ReadCompactSize`, string and map serialization) live
in `serialize.h`, which is not under `src/`; modelled from the spec's
serialization notes as the standard format: compact-size-prefixed strings,
a map as a compact-size count followed by key/value string pairs in key
order.  The model omits the global `MAX_SIZE` cap and the non-canonical
compact-size rejection; neither affects the properties proved here. -/
/-- Little-endian fixed-width byte encoding. -/
def writeLE : Nat → Nat → List Nat
  | 0, _ => []
  | k + 1, n => n % 256 :: writeLE k (n / 256)

/-- Little-endian fixed-width byte decoding. -/
def readLE : Nat → List Nat → Option (Nat × List Nat)
  | 0, s => some (0, s)
  | _ + 1, [] => none
  | k + 1, b :: s =>
    match readLE k s with
    | none => none
    | some (v, rest) => some (b + 256 * v, rest)

/-- Embeds `WriteCompactSize`. -/
def writeCS (n : Nat) : List Nat :=
  if n < 253 then [n]
  else if n < 65536 then 253 :: writeLE 2 n
  else if n < 4294967296 then 254 :: writeLE 4 n
  else 255 :: writeLE 8 n

/-- Embeds `ReadCompactSize`. -/
def readCS : List Nat → Option (Nat × List Nat)
  | [] => none
  | b :: s =>
    if b < 253 then some (b, s)
    else if b = 253 then readLE 2 s
    else if b = 254 then readLE 4 s
    else readLE 8 s

/-- A serialized string: compact-size length followed by the bytes. -/
def writeStr (s : Str) : List Nat :=
  writeCS s.length ++ s

/-- Read one serialized string. -/
def readStr (s : List Nat) : Option (Str × List Nat) :=
  match readCS s with
  | none => none
  | some (len, rest) =>
    if len ≤ rest.length then some (rest.take len, rest.drop len) else none

/-- The serialized key/value pairs of a map, in (sorted) order. -/
def pairsBytes (m : SMap) : List Nat :=
  m.foldr (fun p acc => writeStr p.1 ++ (writeStr p.2 ++ acc)) []

/-- A serialized `mapValue_t`: compact-size count followed by the pairs. -/
def serMapBytes (m : SMap) : List Nat :=
  writeCS m.length ++ pairsBytes m

/-- Read `cnt` key/value pairs, inserting each into the accumulated map
(`std::map` deserialization inserts with an end hint). -/
def readPairs : Nat → List Nat → SMap → Option (SMap × List Nat)
  | 0, s, acc => some (acc, s)
  | cnt + 1, s, acc =>
    match readStr s with
    | none => none
    | some (k, s1) =>
      match readStr s1 with
      | none => none
      | some (v, s2) => readPairs cnt s2 (SMap.insert k v acc)

/-- Read one serialized `mapValue_t`, returning it with the unread rest. -/
def deserMapBytes (s : List Nat) : Option (SMap × List Nat) :=
  match readCS s with
  | none => none
  | some (cnt, rest) => readPairs cnt rest []

/-- Embeds `std::string::find` of the first NUL byte. -/
def nulPos : Str → Option Nat
  | [] => none
  | b :: s => if b = 0 then some 0 else (nulPos s).map (· + 1)

/-- Embeds `CAccountingEntry` (`wallet.h` 599–676).  `strAccount` is serialized as
part of the database key, `nEntryNo` is the in-memory counter; neither is
part of the value stream. -/
structure CAccountingEntry where
  strAccount : Str
  nCreditDebit : Int
  nTime : Int
  strOtherAccount : Str
  strComment : Str
  mapValue : SMap
  nOrderPos : Int
  nEntryNo : Nat
  ssExtra : List Nat
deriving DecidableEq

/-- The `mapValueCopy` built by `CAccountingEntry::Serialize`
(`wallet.h` 636–637). -/
def acMapValueCopy (e : CAccountingEntry) : SMap :=
  WriteOrderPos e.nOrderPos e.mapValue

/-- The comment string actually written (`wallet.h` 639–647): when the map
copy or the retained extra bytes are nonempty, a NUL separator, the
serialized map and the extra bytes are appended to the comment. -/
def acCommentCopy (e : CAccountingEntry) : Str :=
  if acMapValueCopy e ≠ [] ∨ e.ssExtra ≠ [] then
    e.strComment ++ 0 :: (serMapBytes (acMapValueCopy e) ++ e.ssExtra)
  else e.strComment

/-- Embeds `CAccountingEntry::Serialize` (`wallet.h` 627–648) on a non-`GETHASH`
stream with version `ver`; `strAccount` is omitted (it is the key). -/
def CAccountingEntry.Serialize (ver : Int) (e : CAccountingEntry) : List Tok :=
  [Tok.i32 ver, Tok.i64 e.nCreditDebit, Tok.i64 e.nTime,
   Tok.str e.strOtherAccount, Tok.str (acCommentCopy e)]

/-- The record produced by `CAccountingEntry::Unserialize` when the read
comment contains no NUL separator. -/
def acReadNoSep (cd tm : Int) (oa cm : Str) : CAccountingEntry :=
  { strAccount := [], nCreditDebit := cd, nTime := tm, strOtherAccount := oa,
    strComment := cm, mapValue := [], nOrderPos := ReadOrderPos [],
    nEntryNo := 0, ssExtra := [] }

/-- The record produced by `CAccountingEntry::Unserialize` when the read
comment has its first NUL at `idx` and the embedded sub-stream parses to
the map `mv` followed by the retained bytes `extra`. -/
def acReadSep (cd tm : Int) (oa cm : Str) (idx : Nat) (mv : SMap)
    (extra : List Nat) : CAccountingEntry :=
  { strAccount := [], nCreditDebit := cd, nTime := tm, strOtherAccount := oa,
    strComment := cm.take idx, mapValue := SMap.erase kN mv,
    nOrderPos := ReadOrderPos mv, nEntryNo := 0, ssExtra := extra }

/-- Embeds `CAccountingEntry::Unserialize` (`wallet.h` 650–672): reads the four
value fields (the two strings through `LIMITED_STRING(…, 65536)`, failing
on oversized input), locates the NUL separator in the comment, parses the
embedded map sub-stream, keeps the bytes after it as `_ssExtra`, extracts
`nOrderPos`, truncates the comment at the separator and erases the
reserved key `"n"`. -/
def CAccountingEntry.Unserialize : List Tok → Option (CAccountingEntry × List Tok)
  | Tok.i32 _ :: Tok.i64 cd :: Tok.i64 tm :: Tok.str oa :: Tok.str cm :: rest =>
    if oa.length ≤ 65536 ∧ cm.length ≤ 65536 then
      match nulPos cm with
      | none => some (acReadNoSep cd tm oa cm, rest)
      | some idx =>
        match deserMapBytes (cm.drop (idx + 1)) with
        | none => none
        | some (mv, extra) => some (acReadSep cd tm oa cm idx mv extra, rest)
    else none
  | _ => none

/-- An accounting entry whose NUL-free comment is 65537 bytes long. -/
def c9big : CAccountingEntry :=
  { strAccount := [], nCreditDebit := 0, nTime := 0, strOtherAccount := [],
    strComment := List.replicate 65537 97, mapValue := [], nOrderPos := -1,
    nEntryNo := 0, ssExtra := [] }

/-- A concrete accounting entry exercising every serialized field: a user
map entry, a nonzero order position, retained extra bytes and a NUL-free
comment. -/
def c9wit : CAccountingEntry :=
  { strAccount := [1], nCreditDebit := 5, nTime := 6, strOtherAccount := [99],
    strComment := [1, 2], mapValue := [([97], [98])], nOrderPos := 5,
    nEntryNo := 3, ssExtra := [7, 7] }


theorem digitsToNat_natToDigitsAux (fuel n : Nat) (h : n < fuel) :
    digitsToNat (natToDigitsAux fuel n) = n := by
  induction fuel generalizing n with
  | zero => omega
  | succ fuel ih =>
    unfold natToDigitsAux
    by_cases h10 : n < 10
    · simp [h10, digitsToNat]
    · rw [if_neg h10]
      have hd : n / 10 < fuel := by omega
      have hv := ih (n / 10) hd
      simp only [digitsToNat] at hv ⊢
      rw [List.foldl_append, hv]
      simp only [List.foldl_cons, List.foldl_nil]
      omega

theorem digitsToNat_natToDigits (n : Nat) : digitsToNat (natToDigits n) = n :=
  digitsToNat_natToDigitsAux (n + 1) n (by omega)

theorem parseNat_natStr (n : Nat) : parseNat (natStr n) = n := by
  have h1 : parseNat (natStr n) = digitsToNat (natToDigits n) := by
    simp [parseNat, natStr, digitsToNat, List.foldl_map]
  rw [h1, digitsToNat_natToDigits]

theorem natToDigitsAux_ne_nil (fuel n : Nat) (h : 0 < fuel) :
    natToDigitsAux fuel n ≠ [] := by
  cases fuel with
  | zero => omega
  | succ fuel =>
    unfold natToDigitsAux
    by_cases h10 : n < 10 <;> simp [h10]

theorem natToDigits_ne_nil (n : Nat) : natToDigits n ≠ [] :=
  natToDigitsAux_ne_nil (n + 1) n (by omega)

theorem natStr_head_ne_45 (n : Nat) : (natStr n).head? ≠ some 45 := by
  unfold natStr
  rcases hne : natToDigits n with _ | ⟨d, ds⟩
  · exact absurd hne (natToDigits_ne_nil n)
  · intro hcontra
    simp at hcontra

theorem atoi64_i64tostr (i : Int) : atoi64 (i64tostr i) = i := by
  unfold i64tostr
  by_cases h : i < 0
  · rw [if_pos h]
    unfold atoi64
    simp only [List.head?_cons, List.tail_cons]
    rw [if_pos trivial, parseNat_natStr]
    omega
  · rw [if_neg h]
    unfold atoi64
    rw [if_neg (natStr_head_ne_45 i.toNat), parseNat_natStr]
    omega

namespace SMap

theorem lookup_insert_self (k v : Str) (m : SMap) :
    lookup k (insert k v m) = some v := by
  induction m with
  | nil => simp [insert, lookup]
  | cons p m ih =>
    unfold insert
    by_cases h1 : k < p.1
    · simp [h1, lookup]
    · by_cases h2 : p.1 < k
      · have hne : p.1 ≠ k := ne_of_lt h2
        simp [h1, h2, lookup, hne, ih]
      · simp [h1, h2, lookup]

theorem lookup_insert_ne (k k' v : Str) (m : SMap) (hne : k ≠ k') :
    lookup k (insert k' v m) = lookup k m := by
  have hne' : k' ≠ k := Ne.symm hne
  induction m with
  | nil => simp [insert, lookup, hne']
  | cons p m ih =>
    unfold insert
    by_cases h1 : k' < p.1
    · simp [h1, lookup, hne']
    · by_cases h2 : p.1 < k'
      · simp [h1, h2, lookup, ih]
      · have hpk : p.1 = k' := le_antisymm (not_lt.mp h1) (not_lt.mp h2)
        simp [h1, h2, lookup, hne', hpk]

theorem lookup_erase_self (k : Str) (m : SMap) : lookup k (erase k m) = none := by
  induction m with
  | nil => rfl
  | cons p m ih =>
    unfold erase
    by_cases hp : p.1 = k
    · simp [hp, ih]
    · simp [hp, lookup, ih]

theorem lookup_erase_ne (k k' : Str) (m : SMap) (hne : k ≠ k') :
    lookup k (erase k' m) = lookup k m := by
  induction m with
  | nil => rfl
  | cons p m ih =>
    unfold erase
    by_cases hp : p.1 = k'
    · have h2 : k' ≠ k := Ne.symm hne
      simp [hp, lookup, h2, ih]
    · simp only [hp, if_false, lookup]
      by_cases hpk : p.1 = k
      · simp [hpk]
      · simp [hpk, ih]

theorem lookup_erase (k k' : Str) (m : SMap) :
    lookup k (erase k' m) = if k = k' then none else lookup k m := by
  by_cases hk : k = k'
  · rw [if_pos hk, hk, lookup_erase_self]
  · rw [if_neg hk, lookup_erase_ne k k' m hk]

theorem mem_insert_of_insert (k v : Str) (m : SMap) (q : Str × Str)
    (hq : q ∈ insert k v m) : q ∈ m ∨ q = (k, v) := by
  induction m with
  | nil =>
    simp only [insert, List.mem_singleton] at hq
    right; exact hq
  | cons r m ih =>
    unfold insert at hq
    by_cases hr1 : k < r.1
    · simp only [hr1, if_true, List.mem_cons] at hq
      rcases hq with h | h | h
      · right; exact h
      · left; simp [h]
      · left; simp [h]
    · by_cases hr2 : r.1 < k
      · simp only [hr1, if_false, hr2, if_true, List.mem_cons] at hq
        rcases hq with h | h
        · left; simp [h]
        · rcases ih h with h3 | h3
          · left; simp [h3]
          · right; exact h3
      · simp only [hr1, if_false, hr2, List.mem_cons] at hq
        rcases hq with h | h
        · right; exact h
        · left; simp [h]

theorem insert_sorted (k v : Str) (m : SMap) (h : SMapSorted m) :
    SMapSorted (insert k v m) := by
  induction m with
  | nil => simp [insert, SMapSorted]
  | cons p m ih =>
    rcases h with _ | ⟨hp, hm⟩
    unfold insert
    by_cases h1 : k < p.1
    · rw [if_pos h1]
      refine List.Pairwise.cons ?_ (List.Pairwise.cons hp hm)
      intro q hq
      rcases List.mem_cons.mp hq with h | h
      · rw [h]; exact h1
      · exact lt_trans h1 (hp _ h)
    · by_cases h2 : p.1 < k
      · rw [if_neg h1, if_pos h2]
        refine List.Pairwise.cons ?_ (ih hm)
        intro q hq
        rcases mem_insert_of_insert k v m q hq with h | h
        · exact hp _ h
        · rw [h]; exact h2
      · have hpk : p.1 = k := le_antisymm (not_lt.mp h1) (not_lt.mp h2)
        rw [if_neg h1, if_neg h2]
        refine List.Pairwise.cons ?_ hm
        intro q hq
        rw [← hpk]
        exact hp _ hq

theorem erase_sublist (k : Str) (m : SMap) : List.Sublist (erase k m) m := by
  induction m with
  | nil => exact List.Sublist.refl []
  | cons p m ih =>
    unfold erase
    by_cases hp : p.1 = k
    · rw [if_pos hp]
      exact ih.trans (List.sublist_cons_self p m)
    · rw [if_neg hp]
      exact List.Sublist.cons₂ p ih

theorem erase_sorted (k : Str) (m : SMap) (h : SMapSorted m) :
    SMapSorted (erase k m) :=
  h.sublist (erase_sublist k m)

theorem lookup_eq_none_of_lt_all (k : Str) (m : SMap)
    (h : ∀ q ∈ m, k < q.1) : lookup k m = none := by
  induction m with
  | nil => rfl
  | cons p m ih =>
    unfold lookup
    rw [if_neg (ne_of_gt (h p (by simp)))]
    exact ih (fun q hq => h q (by simp [hq]))

/-- Sorted association lists with the same lookup function are equal. -/
theorem ext_lookup (m₁ m₂ : SMap) (h₁ : SMapSorted m₁) (h₂ : SMapSorted m₂)
    (h : ∀ k, lookup k m₁ = lookup k m₂) : m₁ = m₂ := by
  induction m₁ generalizing m₂ with
  | nil =>
    cases m₂ with
    | nil => rfl
    | cons q m₂ =>
      have hq := h q.1
      simp [lookup] at hq
  | cons p m₁ ih =>
    cases m₂ with
    | nil =>
      have hp := h p.1
      simp [lookup] at hp
    | cons q m₂ =>
      rcases h₁ with _ | ⟨hp, hm₁⟩
      rcases h₂ with _ | ⟨hq, hm₂⟩
      have hkey : p.1 = q.1 := by
        rcases lt_trichotomy p.1 q.1 with hlt | heq | hgt
        · exfalso
          have hh := h p.1
          simp only [lookup, if_pos rfl] at hh
          rw [if_neg (ne_of_gt hlt)] at hh
          rw [lookup_eq_none_of_lt_all p.1 m₂
            (fun r hr => lt_trans hlt (hq r hr))] at hh
          exact Option.noConfusion hh
        · exact heq
        · exfalso
          have hh := h q.1
          simp only [lookup, if_pos rfl] at hh
          rw [if_neg (ne_of_gt hgt)] at hh
          rw [lookup_eq_none_of_lt_all q.1 m₁
            (fun r hr => lt_trans hgt (hp r hr))] at hh
          exact Option.noConfusion hh
      have hval : p.2 = q.2 := by
        have hh := h p.1
        simp only [lookup, if_pos rfl] at hh
        rw [if_pos hkey.symm] at hh
        exact Option.some.inj hh
      have htail : m₁ = m₂ := by
        refine ih m₂ hm₁ hm₂ ?_
        intro k
        by_cases hk : k = p.1
        · rw [hk]
          rw [lookup_eq_none_of_lt_all p.1 m₁ (fun r hr => hp r hr),
            lookup_eq_none_of_lt_all p.1 m₂ (fun r hr => by rw [hkey]; exact hq r hr)]
        · have hh := h k
          unfold lookup at hh
          rw [if_neg (fun h3 => hk h3.symm),
            if_neg (by rw [← hkey]; exact fun h3 => hk h3.symm)] at hh
          exact hh
      rw [Prod.ext hkey hval, htail]

theorem mem_insert_self (k v : Str) (m : SMap) : mem k (insert k v m) = true := by
  simp [mem, lookup_insert_self]

theorem mem_insert_ne (k k' v : Str) (m : SMap) (hne : k ≠ k') :
    mem k (insert k' v m) = mem k m := by
  simp [mem, lookup_insert_ne k k' v m hne]

theorem lookup_eq_none_of_not_mem (k : Str) (m : SMap) (h : mem k m = false) :
    lookup k m = none := by
  simp only [mem] at h
  rcases hl : lookup k m with _ | v
  · rfl
  · rw [hl] at h
    simp at h

end SMap

theorem ReadOrderPos_WriteOrderPos (i : Int) (m : SMap) (hi : i ≠ -1) :
    ReadOrderPos (WriteOrderPos i m) = i := by
  unfold WriteOrderPos ReadOrderPos
  rw [if_neg hi, if_pos (SMap.mem_insert_self kN (i64tostr i) m),
    SMap.lookup_insert_self]
  simp only [Option.getD_some]
  exact atoi64_i64tostr i

theorem ReadOrderPos_of_not_mem (m : SMap) (hm : SMap.mem kN m = false) :
    ReadOrderPos m = -1 := by
  unfold ReadOrderPos
  rw [hm]
  simp

theorem atoi64_natStr (n : Nat) : atoi64 (natStr n) = (n : Int) := by
  unfold atoi64
  rw [if_neg (natStr_head_ne_45 n), parseNat_natStr]

theorem uintCast_natCast (v : Fin 4294967296) : uintCast ((v.val : Nat) : Int) = v := by
  have hlt := v.isLt
  apply Fin.ext
  simp only [uintCast]
  omega

theorem WriteOrderPos_sorted (i : Int) (m : SMap) (h : SMapSorted m) :
    SMapSorted (WriteOrderPos i m) := by
  unfold WriteOrderPos
  by_cases hi : i = -1
  · rw [if_pos hi]; exact h
  · rw [if_neg hi]; exact SMap.insert_sorted _ _ _ h

theorem wtxMapValueCopy_sorted (w : CWalletTx) (h : SMapSorted w.mapValue) :
    SMapSorted (wtxMapValueCopy w) := by
  unfold wtxMapValueCopy
  have h2 : SMapSorted (WriteOrderPos w.nOrderPos
      (SMap.insert kFromaccount w.strFromAccount w.mapValue)) :=
    WriteOrderPos_sorted _ _ (SMap.insert_sorted _ _ _ h)
  by_cases hts : w.nTimeSmart.val ≠ 0
  · rw [if_pos hts]; exact SMap.insert_sorted _ _ _ h2
  · rw [if_neg hts]; exact h2

theorem lookup_WriteOrderPos_ne (k : Str) (i : Int) (m : SMap) (hk : k ≠ kN) :
    SMap.lookup k (WriteOrderPos i m) = SMap.lookup k m := by
  unfold WriteOrderPos
  by_cases hi : i = -1
  · rw [if_pos hi]
  · rw [if_neg hi, SMap.lookup_insert_ne _ _ _ _ hk]

theorem lookup_wtxMapValueCopy_fromaccount (w : CWalletTx) :
    SMap.lookup kFromaccount (wtxMapValueCopy w) = some w.strFromAccount := by
  unfold wtxMapValueCopy
  have hfa : SMap.lookup kFromaccount (WriteOrderPos w.nOrderPos
      (SMap.insert kFromaccount w.strFromAccount w.mapValue)) = some w.strFromAccount := by
    rw [lookup_WriteOrderPos_ne _ _ _ (by decide), SMap.lookup_insert_self]
  by_cases hts : w.nTimeSmart.val ≠ 0
  · rw [if_pos hts, SMap.lookup_insert_ne _ _ _ _ (by decide), hfa]
  · rw [if_neg hts, hfa]

theorem lookup_wtxMapValueCopy_other (w : CWalletTx) (k : Str)
    (h1 : k ≠ kTimesmart) (h2 : k ≠ kN) (h3 : k ≠ kFromaccount) :
    SMap.lookup k (wtxMapValueCopy w) = SMap.lookup k w.mapValue := by
  unfold wtxMapValueCopy
  have hrest : SMap.lookup k (WriteOrderPos w.nOrderPos
      (SMap.insert kFromaccount w.strFromAccount w.mapValue)) = SMap.lookup k w.mapValue := by
    rw [lookup_WriteOrderPos_ne _ _ _ h2, SMap.lookup_insert_ne _ _ _ _ h3]
  by_cases hts : w.nTimeSmart.val ≠ 0
  · rw [if_pos hts, SMap.lookup_insert_ne _ _ _ _ h1, hrest]
  · rw [if_neg hts, hrest]

theorem ReadOrderPos_wtxMapValueCopy (w : CWalletTx)
    (hn : w.nOrderPos = -1 → SMap.mem kN w.mapValue = false) :
    ReadOrderPos (wtxMapValueCopy w) = w.nOrderPos := by
  by_cases hop : w.nOrderPos = -1
  · have hmem : SMap.mem kN (wtxMapValueCopy w) = false := by
      have hl : SMap.lookup kN (wtxMapValueCopy w) = SMap.lookup kN w.mapValue := by
        unfold wtxMapValueCopy WriteOrderPos
        by_cases hts : w.nTimeSmart.val ≠ 0
        · rw [if_pos hts, SMap.lookup_insert_ne _ _ _ _ (by decide), if_pos hop,
            SMap.lookup_insert_ne _ _ _ _ (by decide)]
        · rw [if_neg hts, if_pos hop, SMap.lookup_insert_ne _ _ _ _ (by decide)]
      rw [SMap.mem, hl, SMap.lookup_eq_none_of_not_mem _ _ (hn hop)]
      rfl
    rw [ReadOrderPos, hmem, hop]
    simp
  · have hl : SMap.lookup kN (wtxMapValueCopy w) = some (i64tostr w.nOrderPos) := by
      unfold wtxMapValueCopy WriteOrderPos
      by_cases hts : w.nTimeSmart.val ≠ 0
      · rw [if_pos hts, SMap.lookup_insert_ne _ _ _ _ (by decide), if_neg hop,
          SMap.lookup_insert_self]
      · rw [if_neg hts, if_neg hop, SMap.lookup_insert_self]
    rw [ReadOrderPos, SMap.mem, hl]
    simp only [Option.isSome_some, if_true, Option.getD_some]
    exact atoi64_i64tostr w.nOrderPos

theorem timesmart_wtxMapValueCopy (w : CWalletTx)
    (hts0 : w.nTimeSmart.val = 0 → SMap.mem kTimesmart w.mapValue = false) :
    (if SMap.mem kTimesmart (wtxMapValueCopy w) = true then
        uintCast (atoi64 ((SMap.lookup kTimesmart (wtxMapValueCopy w)).getD []))
      else ⟨0, by norm_num⟩) = w.nTimeSmart := by
  by_cases hts : w.nTimeSmart.val ≠ 0
  · have hl : SMap.lookup kTimesmart (wtxMapValueCopy w) =
        some (natStr w.nTimeSmart.val) := by
      unfold wtxMapValueCopy
      rw [if_pos hts, SMap.lookup_insert_self]
    rw [SMap.mem, hl]
    simp only [Option.isSome_some, if_true, Option.getD_some]
    rw [atoi64_natStr, uintCast_natCast]
  · push_neg at hts
    have hl : SMap.lookup kTimesmart (wtxMapValueCopy w) = none := by
      have hmv : SMap.lookup kTimesmart (wtxMapValueCopy w) =
          SMap.lookup kTimesmart w.mapValue := by
        unfold wtxMapValueCopy
        rw [if_neg (by simp [hts]), lookup_WriteOrderPos_ne _ _ _ (by decide),
          SMap.lookup_insert_ne _ _ _ _ (by decide)]
      rw [hmv, SMap.lookup_eq_none_of_not_mem _ _ (hts0 hts)]
    rw [SMap.mem, hl]
    simp only [Option.isSome_none]
    rw [if_neg (by simp)]
    apply Fin.ext
    simp [hts]

theorem eraseAll_wtxMapValueCopy (w : CWalletTx) (hsort : SMapSorted w.mapValue) :
    SMap.erase kTimesmart (SMap.erase kN (SMap.erase kSpent
      (SMap.erase kFromaccount (wtxMapValueCopy w)))) =
    SMap.erase kTimesmart (SMap.erase kN (SMap.erase kSpent
      (SMap.erase kFromaccount w.mapValue))) := by
  have hcs : SMapSorted (wtxMapValueCopy w) := wtxMapValueCopy_sorted w hsort
  apply SMap.ext_lookup
  · exact SMap.erase_sorted _ _ (SMap.erase_sorted _ _ (SMap.erase_sorted _ _
      (SMap.erase_sorted _ _ hcs)))
  · exact SMap.erase_sorted _ _ (SMap.erase_sorted _ _ (SMap.erase_sorted _ _
      (SMap.erase_sorted _ _ hsort)))
  · intro k
    rw [SMap.lookup_erase, SMap.lookup_erase, SMap.lookup_erase, SMap.lookup_erase,
      SMap.lookup_erase, SMap.lookup_erase, SMap.lookup_erase, SMap.lookup_erase]
    by_cases h1 : k = kTimesmart
    · rw [if_pos h1, if_pos h1]
    · rw [if_neg h1, if_neg h1]
      by_cases h2 : k = kN
      · rw [if_pos h2, if_pos h2]
      · rw [if_neg h2, if_neg h2]
        by_cases h3 : k = kSpent
        · rw [if_pos h3, if_pos h3]
        · rw [if_neg h3, if_neg h3]
          by_cases h4 : k = kFromaccount
          · rw [if_pos h4, if_pos h4]
          · rw [if_neg h4, if_neg h4]
            exact lookup_wtxMapValueCopy_other w k h1 h2 h4

/-- C4 (amended): for every `CWalletTx` whose map satisfies the `std::map`
representation invariant and does not carry the reserved key `"n"` while
`nOrderPos = -1` nor the reserved key `"timesmart"` while `nTimeSmart = 0`,
`Unserialize ∘ Serialize` restores the transaction, `hashBlock`, `nIndex`,
`mapValue` (with the reserved keys `"fromaccount"`, `"spent"`, `"n"`,
`"timesmart"` erased), `vOrderForm`, `fTimeReceivedIsTxTime`,
`nTimeReceived`, `fFromMe`, `strFromAccount`, `nOrderPos` and `nTimeSmart`;
the legacy `fSpent` byte is written as 0 and any read value is discarded,
and the legacy merkle-branch and `vtxPrev` vectors are written empty. -/
theorem c4_wtx_serialize_roundtrip (w : CWalletTx)
    (hsort : SMapSorted w.mapValue)
    (hn : w.nOrderPos = -1 → SMap.mem kN w.mapValue = false)
    (hts : w.nTimeSmart.val = 0 → SMap.mem kTimesmart w.mapValue = false) :
    CWalletTx.Serialize w =
      [Tok.txRef w.tx, Tok.u256 w.hashBlock, Tok.vecU256 [], Tok.i32 w.nIndex,
       Tok.vecMTx [], Tok.mp (wtxMapValueCopy w), Tok.vps w.vOrderForm,
       Tok.u32 w.fTimeReceivedIsTxTime, Tok.u32 w.nTimeReceived,
       Tok.ch (if w.fFromMe then 1 else 0), Tok.ch 0] ∧
    ∀ b : Nat, ∃ w' : CWalletTx,
      CWalletTx.Unserialize (CWalletTx.SerializeSpent w b) = some (w', []) ∧
      w'.tx = w.tx ∧ w'.hashBlock = w.hashBlock ∧ w'.nIndex = w.nIndex ∧
      w'.mapValue = SMap.erase kTimesmart (SMap.erase kN (SMap.erase kSpent
        (SMap.erase kFromaccount w.mapValue))) ∧
      w'.vOrderForm = w.vOrderForm ∧
      w'.fTimeReceivedIsTxTime = w.fTimeReceivedIsTxTime ∧
      w'.nTimeReceived = w.nTimeReceived ∧
      w'.fFromMe = w.fFromMe ∧
      w'.strFromAccount = w.strFromAccount ∧
      w'.nOrderPos = w.nOrderPos ∧
      w'.nTimeSmart = w.nTimeSmart := by
  constructor
  · rfl
  · intro b
    refine ⟨_, rfl, rfl, rfl, rfl, ?_, rfl, rfl, rfl, ?_, ?_, ?_, ?_⟩
    · exact eraseAll_wtxMapValueCopy w hsort
    · cases hf : w.fFromMe <;> simp
    · rw [lookup_wtxMapValueCopy_fromaccount w]
      rfl
    · exact ReadOrderPos_wtxMapValueCopy w hn
    · exact timesmart_wtxMapValueCopy w hts

/-- C1 counterexample: `MarkDirty` does **not** clear the mempool-presence
flag `fInMempool` — on a transaction whose flag is set, the flag is still
set afterwards, contradicting the claim that `MarkDirty` sets it to false. -/
theorem c1_markdirty_counterexample :
    ¬ ((CWalletTx.MarkDirty c1wtx).fInMempool = false) := by decide

/-- C1 (amended): `MarkDirty` (`wallet.h` 460–474) sets exactly the twelve
cache-validity flags (debit, credit, immature credit, available credit,
anonymized and both denominated credits, the four watch-only variants, and
change) to false, and leaves every other field — including `fInMempool`
and the cached amounts — unchanged. -/
theorem c1_markdirty_clears_exactly_cache_flags (w : CWalletTx) :
    (CWalletTx.MarkDirty w).fDebitCached = false ∧
    (CWalletTx.MarkDirty w).fCreditCached = false ∧
    (CWalletTx.MarkDirty w).fImmatureCreditCached = false ∧
    (CWalletTx.MarkDirty w).fAvailableCreditCached = false ∧
    (CWalletTx.MarkDirty w).fAnonymizedCreditCached = false ∧
    (CWalletTx.MarkDirty w).fDenomUnconfCreditCached = false ∧
    (CWalletTx.MarkDirty w).fDenomConfCreditCached = false ∧
    (CWalletTx.MarkDirty w).fWatchDebitCached = false ∧
    (CWalletTx.MarkDirty w).fWatchCreditCached = false ∧
    (CWalletTx.MarkDirty w).fImmatureWatchCreditCached = false ∧
    (CWalletTx.MarkDirty w).fAvailableWatchCreditCached = false ∧
    (CWalletTx.MarkDirty w).fChangeCached = false ∧
    (CWalletTx.MarkDirty w).fInMempool = w.fInMempool ∧
    (CWalletTx.MarkDirty w).tx = w.tx ∧
    (CWalletTx.MarkDirty w).hashBlock = w.hashBlock ∧
    (CWalletTx.MarkDirty w).nIndex = w.nIndex ∧
    (CWalletTx.MarkDirty w).mapValue = w.mapValue ∧
    (CWalletTx.MarkDirty w).vOrderForm = w.vOrderForm ∧
    (CWalletTx.MarkDirty w).fTimeReceivedIsTxTime = w.fTimeReceivedIsTxTime ∧
    (CWalletTx.MarkDirty w).nTimeReceived = w.nTimeReceived ∧
    (CWalletTx.MarkDirty w).nTimeSmart = w.nTimeSmart ∧
    (CWalletTx.MarkDirty w).fFromMe = w.fFromMe ∧
    (CWalletTx.MarkDirty w).strFromAccount = w.strFromAccount ∧
    (CWalletTx.MarkDirty w).nOrderPos = w.nOrderPos ∧
    (CWalletTx.MarkDirty w).nDebitCached = w.nDebitCached ∧
    (CWalletTx.MarkDirty w).nCreditCached = w.nCreditCached ∧
    (CWalletTx.MarkDirty w).nImmatureCreditCached = w.nImmatureCreditCached ∧
    (CWalletTx.MarkDirty w).nAvailableCreditCached = w.nAvailableCreditCached ∧
    (CWalletTx.MarkDirty w).nAnonymizedCreditCached = w.nAnonymizedCreditCached ∧
    (CWalletTx.MarkDirty w).nDenomUnconfCreditCached = w.nDenomUnconfCreditCached ∧
    (CWalletTx.MarkDirty w).nDenomConfCreditCached = w.nDenomConfCreditCached ∧
    (CWalletTx.MarkDirty w).nWatchDebitCached = w.nWatchDebitCached ∧
    (CWalletTx.MarkDirty w).nWatchCreditCached = w.nWatchCreditCached ∧
    (CWalletTx.MarkDirty w).nImmatureWatchCreditCached = w.nImmatureWatchCreditCached ∧
    (CWalletTx.MarkDirty w).nAvailableWatchCreditCached = w.nAvailableWatchCreditCached ∧
    (CWalletTx.MarkDirty w).nChangeCached = w.nChangeCached := by
  simp [CWalletTx.MarkDirty]

/-- C5: `isAbandoned` holds exactly when `hashBlock` is the `ABANDON_HASH`
sentinel; `hashUnset` holds exactly when `hashBlock` is null or the
sentinel; after `setAbandoned` both hold; and `Init` yields a null
`hashBlock` with `nIndex = -1`, i.e. an unconfirmed, non-abandoned record
(`wallet.h` 248–252 and 282–284). -/
theorem c5_abandoned_sentinel (m : CMerkleTx) :
    (m.isAbandoned = true ↔ m.hashBlock = ABANDON_HASH) ∧
    (m.hashUnset = true ↔ (m.hashBlock = 0 ∨ m.hashBlock = ABANDON_HASH)) ∧
    m.setAbandoned.isAbandoned = true ∧
    m.setAbandoned.hashUnset = true ∧
    m.Init.hashBlock = 0 ∧
    m.Init.nIndex = -1 ∧
    m.Init.hashUnset = true ∧
    m.Init.isAbandoned = false := by
  simp [CMerkleTx.isAbandoned, CMerkleTx.hashUnset, CMerkleTx.setAbandoned,
    CMerkleTx.Init, ABANDON_HASH]

/-- C10: `WriteOrderPos` followed by `ReadOrderPos` restores any
non-negative `nOrderPos` on a map not containing `"n"`; for
`nOrderPos = -1`, `WriteOrderPos` leaves the map unchanged and
`ReadOrderPos` on a map without `"n"` yields `-1` (`wallet.h` 193–209). -/
theorem c10_orderpos_roundtrip (i : Int) (m : SMap)
    (hm : SMap.mem kN m = false) (hi : 0 ≤ i) :
    ReadOrderPos (WriteOrderPos i m) = i ∧
    WriteOrderPos (-1) m = m ∧
    ReadOrderPos m = -1 := by
  refine ⟨ReadOrderPos_WriteOrderPos i m (by omega), ?_, ReadOrderPos_of_not_mem m hm⟩
  unfold WriteOrderPos
  rw [if_pos rfl]

/-- C10 witness: the round trip at `nOrderPos = 3` on the empty map. -/
theorem c10_orderpos_roundtrip_witness :
    SMap.mem kN [] = false ∧ (0 : Int) ≤ 3 ∧
    (ReadOrderPos (WriteOrderPos 3 []) = 3 ∧
      WriteOrderPos (-1) [] = [] ∧ ReadOrderPos [] = -1) :=
  ⟨by decide, by decide, c10_orderpos_roundtrip 3 [] (by decide) (by decide)⟩

/-- C4 counterexample: on a transaction whose user-level map carries the
reserved key `"n"` with value `"7"` while `nOrderPos = -1`, the
serialization round trip does **not** restore `nOrderPos`: it comes back
as `7`. -/
theorem c4_wtx_roundtrip_counterexample :
    c4wtx.nOrderPos = -1 ∧
    (CWalletTx.Unserialize (CWalletTx.Serialize c4wtx)).map
      (fun r => r.1.nOrderPos) = some 7 := by
  constructor
  · rfl
  · decide

/-- C4 witness: the amended round trip at a concrete transaction with a
nonzero `nTimeSmart`, a user map entry, and spent byte 9 in the stream. -/
theorem c4_wtx_serialize_roundtrip_witness :
    SMapSorted c4wit.mapValue ∧
    (c4wit.nOrderPos = -1 → SMap.mem kN c4wit.mapValue = false) ∧
    (c4wit.nTimeSmart.val = 0 → SMap.mem kTimesmart c4wit.mapValue = false) ∧
    (∃ w' : CWalletTx,
      CWalletTx.Unserialize (CWalletTx.SerializeSpent c4wit 9) = some (w', []) ∧
      w'.tx = c4wit.tx ∧ w'.hashBlock = c4wit.hashBlock ∧ w'.nIndex = c4wit.nIndex ∧
      w'.mapValue = SMap.erase kTimesmart (SMap.erase kN (SMap.erase kSpent
        (SMap.erase kFromaccount c4wit.mapValue))) ∧
      w'.vOrderForm = c4wit.vOrderForm ∧
      w'.fTimeReceivedIsTxTime = c4wit.fTimeReceivedIsTxTime ∧
      w'.nTimeReceived = c4wit.nTimeReceived ∧
      w'.fFromMe = c4wit.fFromMe ∧
      w'.strFromAccount = c4wit.strFromAccount ∧
      w'.nOrderPos = c4wit.nOrderPos ∧
      w'.nTimeSmart = c4wit.nTimeSmart) :=
  ⟨by decide, by decide, by decide,
    (c4_wtx_serialize_roundtrip c4wit (by decide) (by decide) (by decide)).2 9⟩

theorem count_true_set_le (l : List Bool) (i : Nat) :
    (l.set i true).count true ≤ l.count true + 1 := by
  induction l generalizing i with
  | nil => simp
  | cons b t ih =>
    cases i with
    | zero =>
      simp only [List.set_cons_zero, List.count_cons]
      cases b <;> simp
    | succ j =>
      simp only [List.set_cons_succ, List.count_cons]
      have hj := ih j
      cases b <;> simp <;> omega

theorem count_true_eraseIdx (l : List Bool) (i : Nat) (b : Bool)
    (h : l.get? i = some b) :
    (l.eraseIdx i).count true + (if b then 1 else 0) = l.count true := by
  induction l generalizing i with
  | nil => simp at h
  | cons c t ih =>
    cases i with
    | zero =>
      simp only [List.get?_cons_zero, Option.some.injEq] at h
      rw [← h]
      simp only [List.eraseIdx_cons_zero, List.count_cons]
      cases c <;> simp
    | succ j =>
      simp only [List.get?_cons_succ] at h
      simp only [List.eraseIdx_cons_succ, List.count_cons]
      have hj := ih j h
      cases c <;> simp <;> omega

theorem rescanStep_inv (s s' : RescanState) (op : RescanOp)
    (h : RescanInv s) (hs : rescanStep s op = some s') : RescanInv s' := by
  rcases h with ⟨h1, h2⟩
  cases op with
  | mkReserver =>
    simp only [rescanStep, Option.some.injEq] at hs
    rw [← hs]
    constructor
    · simp [List.count_append, h1]
    · intro hf
      simp only at hf
      simp [List.count_append, h2 hf]
  | reserve i =>
    simp only [rescanStep, rescanReserve] at hs
    rcases hg : s.reservers.get? i with _ | could
    · rw [hg] at hs; simp at hs
    · rw [hg] at hs
      cases could with
      | true => simp at hs
      | false =>
        by_cases hw : s.fScanningWallet = true
        · simp only [Bool.false_eq_true, if_false, hw, if_true, Option.map_some',
            Option.some.injEq] at hs
          rw [← hs]
          exact ⟨h1, h2⟩
        · have hwf : s.fScanningWallet = false := by
            revert hw; cases s.fScanningWallet <;> simp
          simp only [Bool.false_eq_true, if_false, hwf, Option.map_some',
            Option.some.injEq] at hs
          have hres : s'.reservers = s.reservers.set i true := by rw [← hs]
          have hfl : s'.fScanningWallet = true := by rw [← hs]
          constructor
          · rw [hres]
            have hle := count_true_set_le s.reservers i
            have hz := h2 hwf
            omega
          · intro hf
            rw [hfl] at hf
            exact Bool.noConfusion hf
  | destroy i =>
    simp only [rescanStep, rescanDestroy] at hs
    rcases hg : s.reservers.get? i with _ | could
    · rw [hg] at hs; simp at hs
    · rw [hg] at hs
      simp only [Option.some.injEq] at hs
      have hres : s'.reservers = s.reservers.eraseIdx i := by rw [← hs]
      have hfl : s'.fScanningWallet = (if could then false else s.fScanningWallet) := by
        rw [← hs]
      have hcount := count_true_eraseIdx s.reservers i could hg
      cases could with
      | true =>
        simp only [if_true] at hfl hcount
        constructor
        · rw [hres]; omega
        · intro _
          rw [hres]; omega
      | false =>
        simp only [Bool.false_eq_true, if_false] at hfl hcount
        constructor
        · rw [hres]; omega
        · intro hf
          rw [hfl] at hf
          have hz := h2 hf
          rw [hres]; omega

theorem rescanRun_inv (ops : List RescanOp) (s s' : RescanState)
    (h : RescanInv s) (hrun : rescanRun s ops = some s') : RescanInv s' := by
  induction ops generalizing s with
  | nil =>
    simp only [rescanRun, Option.some.injEq] at hrun
    rw [← hrun]; exact h
  | cons op ops ih =>
    simp only [rescanRun] at hrun
    rcases hst : rescanStep s op with _ | s₁
    · rw [hst] at hrun; simp at hrun
    · rw [hst] at hrun
      exact ih s₁ (rescanStep_inv s s₁ op h hst) hrun

/-- C6: rescan reservation is exclusive and scope-bound.  In every state
reachable from the initial one by constructor / `reserve` / destructor
calls, at most one live reserver holds the reservation (and none does
while `fScanningWallet` is clear); `reserve()` returns true and sets
`fScanningWallet` only when the flag was clear, returns false and changes
nothing when another reserver holds it; and the destructor of a reserver
that reserved clears `fScanningWallet` (`wallet.h` 1336–1368). -/
theorem c6_rescan_reserver_exclusive (ops : List RescanOp) (s : RescanState)
    (hrun : rescanRun rescanInit ops = some s) :
    s.reservers.count true ≤ 1 ∧
    (s.fScanningWallet = false → s.reservers.count true = 0) ∧
    (∀ i r s', rescanReserve s i = some (s', r) →
      (r = true → s.fScanningWallet = false ∧ s'.fScanningWallet = true ∧
        s'.reservers = s.reservers.set i true) ∧
      (s.fScanningWallet = true → r = false ∧ s' = s)) ∧
    (∀ i s', s.reservers.get? i = some true → rescanDestroy s i = some s' →
      s'.fScanningWallet = false) := by
  have hinv : RescanInv s :=
    rescanRun_inv ops rescanInit s (by constructor <;> simp [rescanInit]) hrun
  refine ⟨hinv.1, hinv.2, ?_, ?_⟩
  · intro i r s' hres
    unfold rescanReserve at hres
    rcases hg : s.reservers.get? i with _ | could
    · rw [hg] at hres; simp at hres
    · rw [hg] at hres
      cases could with
      | true => simp at hres
      | false =>
        by_cases hw : s.fScanningWallet = true
        · simp only [Bool.false_eq_true, if_false, hw, if_true,
            Option.some.injEq, Prod.mk.injEq] at hres
          constructor
          · intro hr
            rw [hr] at hres
            exact absurd hres.2 (by simp)
          · intro _
            exact ⟨hres.2.symm, hres.1.symm⟩
        · have hwf : s.fScanningWallet = false := by
            revert hw; cases s.fScanningWallet <;> simp
          simp only [Bool.false_eq_true, if_false, hwf,
            Option.some.injEq, Prod.mk.injEq] at hres
          constructor
          · intro _
            exact ⟨hwf, by rw [← hres.1], by rw [← hres.1]⟩
          · intro hcontra
            rw [hwf] at hcontra
            exact Bool.noConfusion hcontra
  · intro i s' hg hdes
    unfold rescanDestroy at hdes
    rw [hg] at hdes
    simp only [Option.some.injEq] at hdes
    rw [← hdes]
    simp

/-- C6 witness: running the concrete sequence reaches a state in which no
reserver holds the reservation. -/
theorem c6_rescan_reserver_exclusive_witness :
    rescanRun rescanInit c6ops =
      some { fScanningWallet := false, reservers := [false] } ∧
    ({ fScanningWallet := false, reservers := [false] } : RescanState).reservers.count true ≤ 1 :=
  ⟨by decide,
    (c6_rescan_reserver_exclusive c6ops
      { fScanningWallet := false, reservers := [false] } (by decide)).1⟩

namespace NSet

theorem mem_of_mem_insert (x : Nat) (s : NSet) (z : Nat) (hz : z ∈ insert x s) :
    z ∈ s ∨ z = x := by
  induction s with
  | nil =>
    simp only [insert, List.mem_singleton] at hz
    right; exact hz
  | cons y s ih =>
    unfold insert at hz
    by_cases h1 : x < y
    · simp only [h1, if_true, List.mem_cons] at hz
      rcases hz with h | h | h
      · right; exact h
      · left; simp [h]
      · left; simp [h]
    · by_cases h2 : y < x
      · simp only [h1, if_false, h2, if_true, List.mem_cons] at hz
        rcases hz with h | h
        · left; simp [h]
        · rcases ih h with h3 | h3
          · left; simp [h3]
          · right; exact h3
      · have hxy : y = x := le_antisymm (not_lt.mp h1) (not_lt.mp h2)
        simp only [h1, if_false, h2, List.mem_cons] at hz
        rcases hz with h | h
        · right; rw [h, hxy]
        · left; simp [h]

theorem insert_sorted_nat (x : Nat) (s : NSet) (h : NSetSorted s) :
    NSetSorted (insert x s) := by
  induction s with
  | nil => simp [insert, NSetSorted]
  | cons y s ih =>
    rcases h with _ | ⟨hy, hs⟩
    unfold insert
    by_cases h1 : x < y
    · rw [if_pos h1]
      refine List.Pairwise.cons ?_ (List.Pairwise.cons hy hs)
      intro z hz
      rcases List.mem_cons.mp hz with h | h
      · rw [h]; exact h1
      · exact lt_trans h1 (hy _ h)
    · by_cases h2 : y < x
      · rw [if_neg h1, if_pos h2]
        refine List.Pairwise.cons ?_ (ih hs)
        intro z hz
        rcases mem_of_mem_insert x s z hz with h | h
        · exact hy _ h
        · rw [h]; exact h2
      · have hxy : y = x := le_antisymm (not_lt.mp h1) (not_lt.mp h2)
        rw [if_neg h1, if_neg h2]
        exact List.Pairwise.cons hy hs

theorem mem_insert_self_nat (x : Nat) (s : NSet) : x ∈ insert x s := by
  induction s with
  | nil => simp [insert]
  | cons y s ih =>
    unfold insert
    by_cases h1 : x < y
    · simp [h1]
    · by_cases h2 : y < x
      · simp only [h1, if_false, h2, if_true, List.mem_cons]
        right; exact ih
      · have hxy : y = x := le_antisymm (not_lt.mp h1) (not_lt.mp h2)
        simp only [h1, if_false, h2, List.mem_cons]
        exact Or.inl hxy.symm

theorem insert_min (x : Nat) (s : NSet) (h : ∀ y ∈ s, x < y) :
    insert x s = x :: s := by
  cases s with
  | nil => rfl
  | cons y t =>
    unfold insert
    rw [if_pos (h y (by simp))]

end NSet

theorem ReturnKey_pop_int (s : KeypoolState) (x : Nat) (rest : NSet)
    (hI : s.setInternalKeyPool = x :: rest) (hsI : NSetSorted s.setInternalKeyPool) :
    ReturnKey x true { s with setInternalKeyPool := rest } = s := by
  rw [hI] at hsI
  rcases hsI with _ | ⟨hlt, _⟩
  unfold ReturnKey
  rw [if_pos rfl]
  show { s with setInternalKeyPool := NSet.insert x rest } = s
  rw [NSet.insert_min x rest hlt, ← hI]

theorem ReturnKey_pop_ext (s : KeypoolState) (x : Nat) (rest : NSet)
    (hE : s.setExternalKeyPool = x :: rest) (hsE : NSetSorted s.setExternalKeyPool) :
    ReturnKey x false { s with setExternalKeyPool := rest } = s := by
  rw [hE] at hsE
  rcases hsE with _ | ⟨hlt, _⟩
  unfold ReturnKey
  rw [if_neg (by simp)]
  show { s with setExternalKeyPool := NSet.insert x rest } = s
  rw [NSet.insert_min x rest hlt, ← hE]

/-- C7: reserving a key and then dropping the `CReserveKey` handle without
`KeepKey` (so its destructor calls `ReturnKey`) restores the reserved
index to the set it was drawn from — in fact restores the whole keypool
state — and the next reserve on the same chain returns the same index. -/
theorem c7_keypool_reserve_return_roundtrip (s : KeypoolState) (req : Bool)
    (hsE : NSetSorted s.setExternalKeyPool) (hsI : NSetSorted s.setInternalKeyPool)
    (i : Nat) (f : Bool) (s' : KeypoolState)
    (hres : ReserveKeyFromKeyPool s req = some ((i, f), s')) :
    dropReserveKeyHandle { nIndex := some i, fInternal := f } s' = s ∧
    ReserveKeyFromKeyPool
      (dropReserveKeyHandle { nIndex := some i, fInternal := f } s') req
      = some ((i, f), s') := by
  have hrestore : dropReserveKeyHandle { nIndex := some i, fInternal := f } s' = s := by
    unfold ReserveKeyFromKeyPool at hres
    cases req with
    | true =>
      rw [if_pos rfl] at hres
      rcases hI : s.setInternalKeyPool with _ | ⟨x, rest⟩
      · rw [hI] at hres
        rcases hE : s.setExternalKeyPool with _ | ⟨y, restE⟩
        · rw [hE] at hres; exact absurd hres (by simp)
        · rw [hE] at hres
          simp only [Option.some.injEq, Prod.mk.injEq] at hres
          obtain ⟨⟨hiy, hf⟩, hs'⟩ := hres
          rw [← hf]
          show ReturnKey i false s' = s
          rw [← hiy, ← hs', ← hI]
          exact ReturnKey_pop_ext s y restE hE hsE
      · rw [hI] at hres
        simp only [Option.some.injEq, Prod.mk.injEq] at hres
        obtain ⟨⟨hix, hf⟩, hs'⟩ := hres
        rw [← hf]
        show ReturnKey i true s' = s
        rw [← hix, ← hs']
        exact ReturnKey_pop_int s x rest hI hsI
    | false =>
      rw [if_neg (by simp)] at hres
      rcases hE : s.setExternalKeyPool with _ | ⟨x, rest⟩
      · rw [hE] at hres
        rcases hI : s.setInternalKeyPool with _ | ⟨y, restI⟩
        · rw [hI] at hres; exact absurd hres (by simp)
        · rw [hI] at hres
          simp only [Option.some.injEq, Prod.mk.injEq] at hres
          obtain ⟨⟨hiy, hf⟩, hs'⟩ := hres
          rw [← hf]
          show ReturnKey i true s' = s
          rw [← hiy, ← hs', ← hE]
          exact ReturnKey_pop_int s y restI hI hsI
      · rw [hE] at hres
        simp only [Option.some.injEq, Prod.mk.injEq] at hres
        obtain ⟨⟨hix, hf⟩, hs'⟩ := hres
        rw [← hf]
        show ReturnKey i false s' = s
        rw [← hix, ← hs']
        exact ReturnKey_pop_ext s x rest hE hsE
  exact ⟨hrestore, by rw [hrestore]; exact hres⟩

/-- C7 witness: an external reserve on `c7s` pops index 2; dropping the
handle restores the full state. -/
theorem c7_keypool_reserve_return_roundtrip_witness :
    ReserveKeyFromKeyPool c7s false = some ((2, false), c7sAfter) ∧
    dropReserveKeyHandle { nIndex := some 2, fInternal := false } c7sAfter = c7s :=
  ⟨by decide,
    (c7_keypool_reserve_return_roundtrip c7s false (by decide) (by decide)
      2 false c7sAfter (by decide)).1⟩

theorem NSet.mem_insert_of_mem (x : Nat) (s : NSet) (z : Nat) (hz : z ∈ s) :
    z ∈ NSet.insert x s := by
  induction s with
  | nil => simp at hz
  | cons y t ih =>
    unfold NSet.insert
    rcases List.mem_cons.mp hz with h | h
    · by_cases h1 : x < y
      · simp [h1, h]
      · by_cases h2 : y < x
        · simp [h1, h2, h]
        · simp [h1, h2, h]
    · by_cases h1 : x < y
      · simp [h1, h]
      · by_cases h2 : y < x
        · simp only [h1, if_false, h2, if_true, List.mem_cons]
          right; exact ih h
        · simp [h1, h2, h]

theorem genKey_inv (f : Bool) (s : KeypoolState) (h : KPInv s) :
    KPInv (genKey f s) := by
  obtain ⟨hE, hI, hD, hBE, hBI⟩ := h
  cases f with
  | true =>
    refine ⟨hE, NSet.insert_sorted_nat _ _ hI, ?_, ?_, ?_⟩
    · intro x hx hmem
      rcases NSet.mem_of_mem_insert _ _ _ hmem with h | h
      · exact hD x hx h
      · have := hBE x hx
        omega
    · intro x hx
      have := hBE x hx
      show x ≤ s.m_max_keypool_index + 1
      omega
    · intro x hx
      rcases NSet.mem_of_mem_insert _ _ _ hx with h | h
      · have := hBI x h
        show x ≤ s.m_max_keypool_index + 1
        omega
      · show x ≤ s.m_max_keypool_index + 1
        omega
  | false =>
    refine ⟨NSet.insert_sorted_nat _ _ hE, hI, ?_, ?_, ?_⟩
    · intro x hx
      rcases NSet.mem_of_mem_insert _ _ _ hx with h | h
      · exact hD x h
      · intro hmem
        have := hBI x hmem
        omega
    · intro x hx
      rcases NSet.mem_of_mem_insert _ _ _ hx with h | h
      · have := hBE x h
        show x ≤ s.m_max_keypool_index + 1
        omega
      · show x ≤ s.m_max_keypool_index + 1
        omega
    · intro x hx
      have := hBI x hx
      show x ≤ s.m_max_keypool_index + 1
      omega

theorem genKeys_inv (f : Bool) (n : Nat) (s : KeypoolState) (h : KPInv s) :
    KPInv (genKeys f n s) := by
  induction n generalizing s with
  | zero => exact h
  | succ n ih => exact ih (genKey f s) (genKey_inv f s h)

theorem TopUpKeyPool_inv (t : Nat) (s : KeypoolState) (h : KPInv s) :
    KPInv (TopUpKeyPool t s) :=
  genKeys_inv true _ _ (genKeys_inv false _ _ h)

theorem NewKeyPool_inv (t : Nat) (s : KeypoolState) (h : KPInv s) :
    KPInv (NewKeyPool t s) := by
  refine TopUpKeyPool_inv t _ ?_
  obtain ⟨hE, hI, hD, hBE, hBI⟩ := h
  exact ⟨List.Pairwise.nil, List.Pairwise.nil, by simp, by simp, by simp⟩

theorem dropIntHead_inv (s : KeypoolState) (x : Nat) (rest : NSet)
    (hI : s.setInternalKeyPool = x :: rest) (h : KPInv s) :
    KPInv { s with setInternalKeyPool := rest } := by
  obtain ⟨hE, hIs, hD, hBE, hBI⟩ := h
  rw [hI] at hIs hD hBI
  refine ⟨hE, hIs.of_cons, ?_, hBE, ?_⟩
  · intro z hz hmem
    exact hD z hz (by simp [hmem])
  · intro z hz
    exact hBI z (by simp [hz])

theorem dropExtHead_inv (s : KeypoolState) (x : Nat) (rest : NSet)
    (hE : s.setExternalKeyPool = x :: rest) (h : KPInv s) :
    KPInv { s with setExternalKeyPool := rest } := by
  obtain ⟨hEs, hI, hD, hBE, hBI⟩ := h
  rw [hE] at hEs hD hBE
  refine ⟨hEs.of_cons, hI, ?_, ?_, hBI⟩
  · intro z hz
    exact hD z (by simp [hz])
  · intro z hz
    exact hBE z (by simp [hz])

theorem ReturnKey_inv (i : Nat) (f : Bool) (s : KeypoolState) (h : KPInv s)
    (hfresh : f = true → i ∉ s.setExternalKeyPool)
    (hfresh' : f = false → i ∉ s.setInternalKeyPool)
    (hbound : i ≤ s.m_max_keypool_index) :
    KPInv (ReturnKey i f s) := by
  obtain ⟨hE, hI, hD, hBE, hBI⟩ := h
  cases f with
  | true =>
    refine ⟨hE, NSet.insert_sorted_nat _ _ hI, ?_, hBE, ?_⟩
    · intro x hx hmem
      rcases NSet.mem_of_mem_insert _ _ _ hmem with hm | hm
      · exact hD x hx hm
      · rw [hm] at hx
        exact hfresh rfl hx
    · intro x hx
      rcases NSet.mem_of_mem_insert _ _ _ hx with hm | hm
      · exact hBI x hm
      · rw [hm]; exact hbound
  | false =>
    refine ⟨NSet.insert_sorted_nat _ _ hE, hI, ?_, ?_, hBI⟩
    · intro x hx
      rcases NSet.mem_of_mem_insert _ _ _ hx with hm | hm
      · exact hD x hm
      · rw [hm]
        exact hfresh' rfl
    · intro x hx
      rcases NSet.mem_of_mem_insert _ _ _ hx with hm | hm
      · exact hBE x hm
      · rw [hm]; exact hbound

theorem LoadKeyPool_inv (i : Nat) (f : Bool) (s : KeypoolState) (h : KPInv s)
    (hfresh : f = true → i ∉ s.setExternalKeyPool)
    (hfresh' : f = false → i ∉ s.setInternalKeyPool) :
    KPInv (LoadKeyPool i f s) := by
  obtain ⟨hE, hI, hD, hBE, hBI⟩ := h
  cases f with
  | true =>
    refine ⟨hE, NSet.insert_sorted_nat _ _ hI, ?_, ?_, ?_⟩
    · intro x hx hmem
      rcases NSet.mem_of_mem_insert _ _ _ hmem with hm | hm
      · exact hD x hx hm
      · rw [hm] at hx
        exact hfresh rfl hx
    · intro x hx
      have := hBE x hx
      show x ≤ max s.m_max_keypool_index i
      omega
    · intro x hx
      rcases NSet.mem_of_mem_insert _ _ _ hx with hm | hm
      · have := hBI x hm
        show x ≤ max s.m_max_keypool_index i
        omega
      · show x ≤ max s.m_max_keypool_index i
        omega
  | false =>
    refine ⟨NSet.insert_sorted_nat _ _ hE, hI, ?_, ?_, ?_⟩
    · intro x hx
      rcases NSet.mem_of_mem_insert _ _ _ hx with hm | hm
      · exact hD x hm
      · rw [hm]
        exact hfresh' rfl
    · intro x hx
      rcases NSet.mem_of_mem_insert _ _ _ hx with hm | hm
      · have := hBE x hm
        show x ≤ max s.m_max_keypool_index i
        omega
      · show x ≤ max s.m_max_keypool_index i
        omega
    · intro x hx
      have := hBI x hx
      show x ≤ max s.m_max_keypool_index i
      omega

theorem MarkReserveKeysAsUsed_inv (i : Nat) (s : KeypoolState) (h : KPInv s) :
    KPInv (MarkReserveKeysAsUsed i s) := by
  obtain ⟨hE, hI, hD, hBE, hBI⟩ := h
  refine ⟨hE.sublist (List.filter_sublist _), hI.sublist (List.filter_sublist _),
    ?_, ?_, ?_⟩
  · intro x hx hmem
    exact hD x (List.mem_of_mem_filter hx) (List.mem_of_mem_filter hmem)
  · intro x hx
    exact hBE x (List.mem_of_mem_filter hx)
  · intro x hx
    exact hBI x (List.mem_of_mem_filter hx)

theorem kpStep_inv (s s' : KeypoolState) (op : KPOp) (h : KPInv s)
    (hs : kpStep s op = some s') : KPInv s' := by
  cases op with
  | newKeyPool t =>
    simp only [kpStep, Option.some.injEq] at hs
    rw [← hs]; exact NewKeyPool_inv t s h
  | topUpKeyPool t =>
    simp only [kpStep, Option.some.injEq] at hs
    rw [← hs]; exact TopUpKeyPool_inv t s h
  | keepKey i =>
    simp only [kpStep, Option.some.injEq] at hs
    rw [← hs]; exact h
  | markUsed i =>
    simp only [kpStep, Option.some.injEq] at hs
    rw [← hs]; exact MarkReserveKeysAsUsed_inv i s h
  | reserveKey req =>
    simp only [kpStep] at hs
    rcases hres : ReserveKeyFromKeyPool s req with _ | p
    · rw [hres] at hs
      simp only [Option.some.injEq] at hs
      rw [← hs]; exact h
    · rw [hres] at hs
      simp only [Option.some.injEq] at hs
      obtain ⟨⟨i, f⟩, s₁⟩ := p
      rw [← hs]
      unfold ReserveKeyFromKeyPool at hres
      cases req with
      | true =>
        rw [if_pos rfl] at hres
        rcases hI : s.setInternalKeyPool with _ | ⟨x, rest⟩
        · rw [hI] at hres
          rcases hE : s.setExternalKeyPool with _ | ⟨y, restE⟩
          · rw [hE] at hres; exact absurd hres (by simp)
          · rw [hE] at hres
            simp only [Option.some.injEq, Prod.mk.injEq] at hres
            rw [← hres.2, ← hI]
            exact dropExtHead_inv s y restE hE h
        · rw [hI] at hres
          simp only [Option.some.injEq, Prod.mk.injEq] at hres
          rw [← hres.2]
          exact dropIntHead_inv s x rest hI h
      | false =>
        rw [if_neg (by simp)] at hres
        rcases hE : s.setExternalKeyPool with _ | ⟨x, rest⟩
        · rw [hE] at hres
          rcases hI : s.setInternalKeyPool with _ | ⟨y, restI⟩
          · rw [hI] at hres; exact absurd hres (by simp)
          · rw [hI] at hres
            simp only [Option.some.injEq, Prod.mk.injEq] at hres
            rw [← hres.2, ← hE]
            exact dropIntHead_inv s y restI hI h
        · rw [hE] at hres
          simp only [Option.some.injEq, Prod.mk.injEq] at hres
          rw [← hres.2]
          exact dropExtHead_inv s x rest hE h
  | returnKey i f =>
    simp only [kpStep] at hs
    cases f with
    | true =>
      rw [if_pos rfl] at hs
      by_cases hc : i ∈ s.setExternalKeyPool ∨ s.m_max_keypool_index < i
      · rw [if_pos hc] at hs; exact absurd hs (by simp)
      · rw [if_neg hc] at hs
        simp only [Option.some.injEq] at hs
        push_neg at hc
        rw [← hs]
        exact ReturnKey_inv i true s h (fun _ => hc.1) (fun hcontra => Bool.noConfusion hcontra)
          (by omega)
    | false =>
      rw [if_neg (by simp)] at hs
      by_cases hc : i ∈ s.setInternalKeyPool ∨ s.m_max_keypool_index < i
      · rw [if_pos hc] at hs; exact absurd hs (by simp)
      · rw [if_neg hc] at hs
        simp only [Option.some.injEq] at hs
        push_neg at hc
        rw [← hs]
        exact ReturnKey_inv i false s h (fun hcontra => Bool.noConfusion hcontra)
          (fun _ => hc.1) (by omega)
  | load i f =>
    simp only [kpStep] at hs
    cases f with
    | true =>
      rw [if_pos rfl] at hs
      by_cases hc : i ∈ s.setExternalKeyPool
      · rw [if_pos hc] at hs; exact absurd hs (by simp)
      · rw [if_neg hc] at hs
        simp only [Option.some.injEq] at hs
        rw [← hs]
        exact LoadKeyPool_inv i true s h (fun _ => hc) (fun hcontra => Bool.noConfusion hcontra)
    | false =>
      rw [if_neg (by simp)] at hs
      by_cases hc : i ∈ s.setInternalKeyPool
      · rw [if_pos hc] at hs; exact absurd hs (by simp)
      · rw [if_neg hc] at hs
        simp only [Option.some.injEq] at hs
        rw [← hs]
        exact LoadKeyPool_inv i false s h (fun hcontra => Bool.noConfusion hcontra) (fun _ => hc)

theorem kpRun_inv (ops : List KPOp) (s s' : KeypoolState)
    (h : KPInv s) (hrun : kpRun s ops = some s') : KPInv s' := by
  induction ops generalizing s with
  | nil =>
    simp only [kpRun, Option.some.injEq] at hrun
    rw [← hrun]; exact h
  | cons op ops ih =>
    simp only [kpRun] at hrun
    rcases hst : kpStep s op with _ | s₁
    · rw [hst] at hrun; simp at hrun
    · rw [hst] at hrun
      exact ih s₁ (kpStep_inv s s₁ op h hst) hrun

/-- C8: in every keypool state reachable by the keypool operations
(`NewKeyPool`, `TopUpKeyPool`, `ReserveKeyFromKeyPool`, `KeepKey`,
`ReturnKey`, `MarkReserveKeysAsUsed`, `LoadKeyPool`), the external and
internal index sets are disjoint, and `GetKeyPoolSize` (`wallet.h`
1142–1146) returns the sum of their sizes. -/
theorem c8_keypool_disjoint_and_size (ops : List KPOp) (s : KeypoolState)
    (hrun : kpRun kpInit ops = some s) :
    (∀ x ∈ s.setExternalKeyPool, x ∉ s.setInternalKeyPool) ∧
    GetKeyPoolSize s = s.setInternalKeyPool.length + s.setExternalKeyPool.length := by
  have hinv : KPInv s :=
    kpRun_inv ops kpInit s
      ⟨List.Pairwise.nil, List.Pairwise.nil, by simp [kpInit], by simp [kpInit],
        by simp [kpInit]⟩ hrun
  exact ⟨hinv.2.2.1, rfl⟩

/-- C8 witness: running the concrete trace reaches a state with disjoint
pools. -/
theorem c8_keypool_disjoint_and_size_witness :
    kpRun kpInit c8ops =
      some { setExternalKeyPool := [2], setInternalKeyPool := [3, 4, 9],
             m_max_keypool_index := 9 } ∧
    (2 : Nat) ∉ ([3, 4, 9] : List Nat) :=
  ⟨by decide,
    (c8_keypool_disjoint_and_size c8ops
        { setExternalKeyPool := [2], setInternalKeyPool := [3, 4, 9],
          m_max_keypool_index := 9 } (by decide)).1 2 (by decide)⟩

theorem SpendIndexComplete_mapStatus (s : WalletState) (g : WTx → WTx)
    (hg : ∀ t, (g t).txid = t.txid ∧ (g t).vin = t.vin)
    (h : SpendIndexComplete s) :
    SpendIndexComplete { s with mapWallet := s.mapWallet.map g } := by
  intro t ht o ho
  simp only [List.mem_map] at ht
  obtain ⟨t0, ht0, rfl⟩ := ht
  rw [(hg t0).1]
  rw [(hg t0).2] at ho
  exact h t0 ht0 o ho

theorem SpendIndexComplete_setStatus (h hb : Nat) (ni : Int) (s : WalletState)
    (hc : SpendIndexComplete s) : SpendIndexComplete (setStatus h hb ni s) := by
  unfold setStatus
  refine SpendIndexComplete_mapStatus s _ ?_ hc
  intro t
  by_cases ht : t.txid = h
  · rw [if_pos ht]; exact ⟨rfl, rfl⟩
  · rw [if_neg ht]; exact ⟨rfl, rfl⟩

theorem SpendIndexComplete_AddToWallet (t : WTx) (s : WalletState)
    (h : SpendIndexComplete s) : SpendIndexComplete (AddToWallet t s) := by
  unfold AddToWallet
  by_cases hmem : (lookupWallet s t.txid).isSome = true
  · rw [if_pos hmem]
    exact SpendIndexComplete_setStatus _ _ _ s h
  · rw [if_neg hmem]
    intro t' ht' o ho
    rcases List.mem_append.mp ht' with h1 | h1
    · exact List.mem_append_left _ (h t' h1 o ho)
    · simp only [List.mem_singleton] at h1
      rw [h1] at ho ⊢
      refine List.mem_append_right _ ?_
      simp only [List.mem_map]
      exact ⟨o, ho, rfl⟩

theorem SpendIndexComplete_MarkConflicted (bh h : Nat) (s : WalletState)
    (hc : SpendIndexComplete s) : SpendIndexComplete (MarkConflicted bh h s) := by
  simp only [MarkConflicted]
  refine SpendIndexComplete_mapStatus s _ ?_ hc
  intro t
  by_cases ht : t.txid ∈ spendClosure s.mapTxSpends
      (s.mapWallet.length + s.mapTxSpends.length + 1) [h] []
  · rw [if_pos ht]; exact ⟨rfl, rfl⟩
  · rw [if_neg ht]; exact ⟨rfl, rfl⟩

theorem SpendIndexComplete_AbandonTransaction (h : Nat) (s : WalletState)
    (hc : SpendIndexComplete s) : SpendIndexComplete (AbandonTransaction h s) := by
  simp only [AbandonTransaction]
  refine SpendIndexComplete_mapStatus s _ ?_ hc
  intro t
  by_cases ht : t.txid ∈ spendClosure s.mapTxSpends
      (s.mapWallet.length + s.mapTxSpends.length + 1) [h] []
  · rw [if_pos ht]; exact ⟨rfl, rfl⟩
  · rw [if_neg ht]; exact ⟨rfl, rfl⟩

theorem SpendIndexComplete_foldl {α : Type} (f : WalletState → α → WalletState)
    (hf : ∀ s a, SpendIndexComplete s → SpendIndexComplete (f s a))
    (l : List α) (s : WalletState) (h : SpendIndexComplete s) :
    SpendIndexComplete (l.foldl f s) := by
  induction l generalizing s with
  | nil => exact h
  | cons a l ih => exact ih (f s a) (hf s a h)

theorem SpendIndexComplete_wStep (s : WalletState) (op : WOp)
    (h : SpendIndexComplete s) : SpendIndexComplete (wStep s op) := by
  cases op with
  | add t => exact SpendIndexComplete_AddToWallet t s h
  | load t => exact SpendIndexComplete_AddToWallet t s h
  | connect bh txs conflicted =>
    refine SpendIndexComplete_foldl _ (fun s' t h' => SpendIndexComplete_AddToWallet t s' h')
      txs _ ?_
    exact SpendIndexComplete_foldl _
      (fun s' hh h' => SpendIndexComplete_MarkConflicted bh hh s' h') conflicted s h
  | disconnect txids =>
    exact SpendIndexComplete_foldl _
      (fun s' hh h' => SpendIndexComplete_setStatus hh 0 (-1) s' h') txids s h
  | abandon hh => exact SpendIndexComplete_AbandonTransaction hh s h
  | conflict bh hh => exact SpendIndexComplete_MarkConflicted bh hh s h

/-- C2: in every wallet state reachable from the empty wallet by
`AddToWallet`, `LoadToWallet`, block connect/disconnect, abandoning and
conflict marking, every outpoint referenced by any input of any wallet
transaction appears in the spend index `mapTxSpends` with that
transaction's id as one of its mapped values. -/
theorem c2_spend_index_complete (ops : List WOp) :
    SpendIndexComplete (wRun ops) := by
  unfold wRun
  refine SpendIndexComplete_foldl wStep (fun s op h => SpendIndexComplete_wStep s op h)
    ops _ ?_
  intro t ht
  simp at ht

/-- C2 witness: after the concrete trace, the spend index maps outpoint
`(5,0)` to transaction 7. -/
theorem c2_spend_index_complete_witness :
    (({ txid := 5, n := 0 } : OutPoint), 7) ∈ (wRun c2ops).mapTxSpends :=
  c2_spend_index_complete c2ops
    { txid := 7, vin := [{ txid := 5, n := 0 }], hashBlock := 0, nIndex := -1 }
    (by decide) { txid := 5, n := 0 } (by decide)

theorem GetWalletTx_mem (w : BWallet) (h : Nat) (p : BTx)
    (hp : GetWalletTx w h = some p) : p ∈ w.mapWallet :=
  List.mem_of_find?_eq_some hp

theorem IsTrustedAux_mono (w : BWallet) (n : Nat) (t : BTx)
    (h : IsTrustedAux w n t = true) : IsTrustedAux w (n + 1) t = true := by
  induction n generalizing t with
  | zero => simp [IsTrustedAux] at h
  | succ n ih =>
    unfold IsTrustedAux at h ⊢
    by_cases h1 : 1 ≤ t.nDepth
    · rw [if_pos h1]
    · rw [if_neg h1] at h ⊢
      by_cases h2 : t.nDepth < 0
      · rw [if_pos h2] at h; exact absurd h (by simp)
      · rw [if_neg h2] at h ⊢
        simp only [Bool.and_eq_true, List.all_eq_true] at h ⊢
        refine ⟨h.1, ?_⟩
        intro o ho
        have hfact := h.2 o ho
        rcases hg : GetWalletTx w o.txid with _ | p
        · rw [hg] at hfact; simp at hfact
        · rw [hg] at hfact
          have hfact2 : (decide (1 ≤ p.nDepth) || IsTrustedAux w n p) = true := hfact
          show (decide (1 ≤ p.nDepth) || IsTrustedAux w (n + 1) p) = true
          simp only [Bool.or_eq_true] at hfact2 ⊢
          rcases hfact2 with hc | hc
          · left; exact hc
          · right; exact ih p hc

theorem all_congr_mem {α : Type} (xs : List α) (p q : α → Bool)
    (h : ∀ x ∈ xs, p x = q x) : xs.all p = xs.all q := by
  induction xs with
  | nil => rfl
  | cons y ys ih =>
    simp only [List.all_cons]
    rw [h y (List.mem_cons_self y ys),
      ih (fun z hz => h z (List.mem_cons_of_mem y hz))]

theorem IsTrustedAux_stable_step (w : BWallet) (n : Nat)
    (h : ∀ p ∈ w.mapWallet, IsTrustedAux w n p = IsTrustedAux w (n + 1) p) :
    ∀ t, IsTrustedAux w (n + 1) t = IsTrustedAux w (n + 2) t := by
  intro t
  show IsTrustedAux w (n + 1) t = IsTrustedAux w (n + 1 + 1) t
  conv_lhs => rw [IsTrustedAux]
  conv_rhs => rw [IsTrustedAux]
  by_cases h1 : 1 ≤ t.nDepth
  · rw [if_pos h1, if_pos h1]
  · rw [if_neg h1, if_neg h1]
    by_cases h2 : t.nDepth < 0
    · rw [if_pos h2, if_pos h2]
    · rw [if_neg h2, if_neg h2]
      congr 1
      refine all_congr_mem _ _ _ ?_
      intro o _
      rcases hg : GetWalletTx w o.txid with _ | p
      · rfl
      · have hpmem := GetWalletTx_mem w o.txid p hg
        show (decide (1 ≤ p.nDepth) || IsTrustedAux w n p) =
          (decide (1 ≤ p.nDepth) || IsTrustedAux w (n + 1) p)
        rw [h p hpmem]

theorem countP_lt_of_pointwise {α : Type} (l : List α) (p q : α → Bool)
    (hpq : ∀ a ∈ l, p a = true → q a = true)
    (a : α) (ha : a ∈ l) (hpa : p a = false) (hqa : q a = true) :
    l.countP p < l.countP q := by
  induction l with
  | nil => simp at ha
  | cons b l ih =>
    rcases List.mem_cons.mp ha with rfl | hmem
    · have hle : l.countP p ≤ l.countP q :=
        List.countP_mono_left (fun x hx => hpq x (by simp [hx]))
      simp only [List.countP_cons, hpa, hqa]
      simp
      omega
    · have hlt : l.countP p < l.countP q :=
        ih (fun x hx hp => hpq x (by simp [hx]) hp) hmem
      simp only [List.countP_cons]
      have hb : (if p b = true then 1 else 0) ≤ (if q b = true then 1 else 0) := by
        by_cases hpb : p b = true
        · rw [if_pos hpb, if_pos (hpq b (by simp) hpb)]
        · rw [if_neg hpb]
          by_cases hqb : q b = true
          · rw [if_pos hqb]; omega
          · rw [if_neg hqb]
      omega

theorem trust_stable_or_card (w : BWallet) (n : Nat) :
    (∀ p ∈ w.mapWallet, IsTrustedAux w n p = IsTrustedAux w (n + 1) p) ∨
    n ≤ w.mapWallet.countP (fun t => IsTrustedAux w n t) := by
  induction n with
  | zero => right; omega
  | succ n ih =>
    by_cases hst : ∀ p ∈ w.mapWallet, IsTrustedAux w n p = IsTrustedAux w (n + 1) p
    · left
      intro p hp
      exact IsTrustedAux_stable_step w n hst p
    · right
      push_neg at hst
      obtain ⟨a, ha, hne⟩ := hst
      have hcard : n ≤ w.mapWallet.countP (fun t => IsTrustedAux w n t) := by
        rcases ih with h | h
        · exact absurd h (by push_neg; exact ⟨a, ha, hne⟩)
        · exact h
      have hfa : IsTrustedAux w n a = false := by
        rcases hv : IsTrustedAux w n a with _ | _
        · rfl
        · exact absurd (hv.trans (IsTrustedAux_mono w n a hv).symm) hne
      have hta : IsTrustedAux w (n + 1) a = true := by
        rcases hv : IsTrustedAux w (n + 1) a with _ | _
        · exact absurd (hfa.trans hv.symm) hne
        · rfl
      have hlt := countP_lt_of_pointwise w.mapWallet
        (fun t => IsTrustedAux w n t) (fun t => IsTrustedAux w (n + 1) t)
        (fun x _ hx => IsTrustedAux_mono w n x hx) a ha hfa hta
      have hmono : w.mapWallet.countP (fun t => IsTrustedAux w n t) ≤
          w.mapWallet.countP (fun t => IsTrustedAux w (n + 1) t) :=
        List.countP_mono_left (fun x _ hx => IsTrustedAux_mono w n x hx)
      omega

theorem trust_stable_at_len (w : BWallet) :
    ∀ p ∈ w.mapWallet,
      IsTrustedAux w w.mapWallet.length p =
      IsTrustedAux w (w.mapWallet.length + 1) p := by
  rcases trust_stable_or_card w w.mapWallet.length with h | h
  · exact h
  · have hle := List.countP_le_length (fun t => IsTrustedAux w w.mapWallet.length t)
      (l := w.mapWallet)
    have heq : w.mapWallet.countP (fun t => IsTrustedAux w w.mapWallet.length t) =
        w.mapWallet.length := le_antisymm hle h
    intro p hp
    have hT : IsTrustedAux w w.mapWallet.length p = true :=
      List.countP_eq_length.mp heq p hp
    rw [hT, IsTrustedAux_mono w _ p hT]

theorem foldl_cond_sum (l : List BTx) (p : BTx → Bool) (a : Int) :
    l.foldl (fun acc t => if p t then acc + t.availableCredit else acc) a =
      a + ((l.filter p).map (fun t => t.availableCredit)).sum := by
  induction l generalizing a with
  | nil => simp
  | cons t l ih =>
    simp only [List.foldl_cons, List.filter_cons]
    by_cases hp : p t
    · rw [if_pos hp, ih, if_pos hp]
      simp only [List.map_cons, List.sum_cons]
      omega
    · rw [if_neg hp, ih, if_neg hp]

/-- C3: `GetBalance()` equals the sum of `GetAvailableCredit(t)` over the
wallet transactions `t` for which `IsTrusted()` holds; and `IsTrusted`
satisfies exactly the spec's recursive characterization: a transaction is
trusted iff it is confirmed at depth ≥ 1, or it is from me, unconfirmed
and not in conflict (depth 0), present in the mempool, and every input's
in-wallet parent is confirmed or itself trusted. -/
theorem c3_balance_decomposition (w : BWallet) :
    GetBalance w =
      ((w.mapWallet.filter (fun t => IsTrusted w t)).map
        (fun t => t.availableCredit)).sum ∧
    ∀ t : BTx, IsTrusted w t =
      (if 1 ≤ t.nDepth then true
       else if t.nDepth < 0 then false
       else
         t.fromMe && t.inMempool &&
           t.vin.all (fun o =>
             match GetWalletTx w o.txid with
             | none => false
             | some p => decide (1 ≤ p.nDepth) || IsTrusted w p)) := by
  constructor
  · unfold GetBalance
    rw [foldl_cond_sum]
    simp
  · intro t
    unfold IsTrusted
    conv_lhs => rw [IsTrustedAux]
    by_cases h1 : 1 ≤ t.nDepth
    · rw [if_pos h1, if_pos h1]
    · rw [if_neg h1, if_neg h1]
      by_cases h2 : t.nDepth < 0
      · rw [if_pos h2, if_pos h2]
      · rw [if_neg h2, if_neg h2]
        congr 1
        refine all_congr_mem _ _ _ ?_
        intro o _
        rcases hg : GetWalletTx w o.txid with _ | p
        · rfl
        · have hpmem := GetWalletTx_mem w o.txid p hg
          show (decide (1 ≤ p.nDepth) || IsTrustedAux w w.mapWallet.length p) =
            (decide (1 ≤ p.nDepth) || IsTrusted w p)
          unfold IsTrusted
          rw [trust_stable_at_len w p hpmem]

theorem readLE_writeLE (k : Nat) (n : Nat) (r : List Nat) (h : n < 256 ^ k) :
    readLE k (writeLE k n ++ r) = some (n, r) := by
  induction k generalizing n r with
  | zero =>
    simp only [pow_zero, Nat.lt_one_iff] at h
    rw [h]
    rfl
  | succ k ih =>
    have hdiv : n / 256 < 256 ^ k := by
      rw [pow_succ] at h
      omega
    have hw : writeLE (k + 1) n ++ r = n % 256 :: (writeLE k (n / 256) ++ r) := by
      simp [writeLE]
    rw [hw]
    show (match readLE k (writeLE k (n / 256) ++ r) with
      | none => none
      | some (v, rest) => some (n % 256 + 256 * v, rest)) = some (n, r)
    rw [ih (n / 256) r hdiv]
    show some (n % 256 + 256 * (n / 256), r) = some (n, r)
    have hmod : n % 256 + 256 * (n / 256) = n := by omega
    rw [hmod]

theorem readCS_cons (b : Nat) (s : List Nat) :
    readCS (b :: s) =
      if b < 253 then some (b, s)
      else if b = 253 then readLE 2 s
      else if b = 254 then readLE 4 s
      else readLE 8 s := rfl

theorem readCS_writeCS (n : Nat) (r : List Nat) (h : n < 18446744073709551616) :
    readCS (writeCS n ++ r) = some (n, r) := by
  unfold writeCS
  by_cases h1 : n < 253
  · rw [if_pos h1, List.cons_append, readCS_cons, if_pos h1]
    rfl
  · rw [if_neg h1]
    by_cases h2 : n < 65536
    · rw [if_pos h2, List.cons_append, readCS_cons,
        if_neg (by norm_num), if_pos rfl]
      exact readLE_writeLE 2 n r (by norm_num; omega)
    · rw [if_neg h2]
      by_cases h3 : n < 4294967296
      · rw [if_pos h3, List.cons_append, readCS_cons,
          if_neg (by norm_num), if_neg (by norm_num), if_pos rfl]
        exact readLE_writeLE 4 n r (by norm_num; omega)
      · rw [if_neg h3, List.cons_append, readCS_cons,
          if_neg (by norm_num), if_neg (by norm_num), if_neg (by norm_num)]
        exact readLE_writeLE 8 n r (by norm_num; omega)

theorem readStr_writeStr (s : Str) (r : List Nat)
    (h : s.length < 18446744073709551616) :
    readStr (writeStr s ++ r) = some (s, r) := by
  unfold readStr writeStr
  rw [List.append_assoc, readCS_writeCS s.length (s ++ r) h]
  show (if s.length ≤ (s ++ r).length then
      some ((s ++ r).take s.length, (s ++ r).drop s.length) else none) = some (s, r)
  rw [if_pos (by simp), List.take_left, List.drop_left]

theorem SMap.insert_max (k v : Str) (m : SMap) (h : ∀ q ∈ m, q.1 < k) :
    SMap.insert k v m = m ++ [(k, v)] := by
  induction m with
  | nil => rfl
  | cons p t ih =>
    unfold SMap.insert
    have hpk : p.1 < k := h p (by simp)
    rw [if_neg (by exact not_lt_of_gt hpk), if_pos hpk,
      ih (fun q hq => h q (by simp [hq]))]
    rfl

theorem readPairs_roundtrip (m : SMap) (acc : SMap) (r : List Nat)
    (hsorted : SMapSorted (acc ++ m))
    (hb : ∀ q ∈ m, q.1.length < 18446744073709551616 ∧
      q.2.length < 18446744073709551616) :
    readPairs m.length (pairsBytes m ++ r) acc = some (acc ++ m, r) := by
  induction m generalizing acc r with
  | nil => simp [pairsBytes, readPairs]
  | cons p m ih =>
    have hbp := hb p (by simp)
    have hw : pairsBytes (p :: m) ++ r =
        writeStr p.1 ++ (writeStr p.2 ++ (pairsBytes m ++ r)) := by
      simp [pairsBytes]
    show readPairs (m.length + 1) (pairsBytes (p :: m) ++ r) acc = some (acc ++ p :: m, r)
    rw [hw]
    show (match readStr (writeStr p.1 ++ (writeStr p.2 ++ (pairsBytes m ++ r))) with
      | none => none
      | some (k, s1) =>
        match readStr s1 with
        | none => none
        | some (v, s2) => readPairs m.length s2 (SMap.insert k v acc)) =
      some (acc ++ p :: m, r)
    rw [readStr_writeStr p.1 _ hbp.1]
    show (match readStr (writeStr p.2 ++ (pairsBytes m ++ r)) with
      | none => none
      | some (v, s2) => readPairs m.length s2 (SMap.insert p.1 v acc)) =
      some (acc ++ p :: m, r)
    rw [readStr_writeStr p.2 _ hbp.2]
    show readPairs m.length (pairsBytes m ++ r) (SMap.insert p.1 p.2 acc) =
      some (acc ++ p :: m, r)
    have hacckey : ∀ q ∈ acc, q.1 < p.1 := by
      intro q hq
      have hs2 : List.Pairwise (fun a b => a.1 < b.1) (acc ++ p :: m) := hsorted
      rw [List.pairwise_append] at hs2
      exact hs2.2.2 q hq p (by simp)
    have hinsert : SMap.insert p.1 p.2 acc = acc ++ [p] := by
      rw [SMap.insert_max p.1 p.2 acc hacckey]
    rw [hinsert]
    have hsorted2 : SMapSorted ((acc ++ [p]) ++ m) := by
      rw [List.append_assoc]
      simpa using hsorted
    rw [ih (acc ++ [p]) r hsorted2 (fun q hq => hb q (by simp [hq]))]
    simp

theorem deserMapBytes_serMapBytes (m : SMap) (r : List Nat)
    (hsorted : SMapSorted m)
    (hcnt : m.length < 18446744073709551616)
    (hb : ∀ q ∈ m, q.1.length < 18446744073709551616 ∧
      q.2.length < 18446744073709551616) :
    deserMapBytes (serMapBytes m ++ r) = some (m, r) := by
  unfold deserMapBytes serMapBytes
  rw [List.append_assoc, readCS_writeCS m.length _ hcnt]
  have := readPairs_roundtrip m [] r (by simpa using hsorted) hb
  simpa using this

theorem nulPos_no_nul (c : Str) (h : (0 : Nat) ∉ c) : nulPos c = none := by
  induction c with
  | nil => rfl
  | cons b s ih =>
    unfold nulPos
    rw [if_neg (by intro hb; exact h (by simp [hb]))]
    rw [ih (fun hc => h (by simp [hc]))]
    rfl

theorem nulPos_sep (c rest : Str) (h : (0 : Nat) ∉ c) :
    nulPos (c ++ 0 :: rest) = some c.length := by
  induction c with
  | nil => simp [nulPos]
  | cons b s ih =>
    simp only [List.cons_append, nulPos]
    rw [if_neg (by intro hb; exact h (by simp [hb]))]
    show Option.map (fun x => x + 1) (nulPos (s ++ 0 :: rest)) = some (b :: s).length
    rw [ih (fun hc => h (by simp [hc]))]
    rfl

theorem writeLE_length (k n : Nat) : (writeLE k n).length = k := by
  induction k generalizing n with
  | zero => rfl
  | succ k ih => simp [writeLE, ih]

theorem writeCS_length_pos (n : Nat) : 1 ≤ (writeCS n).length := by
  unfold writeCS
  by_cases h1 : n < 253
  · simp [h1]
  · by_cases h2 : n < 65536 <;> by_cases h3 : n < 4294967296 <;>
      simp [h1, h2, h3, writeLE_length]

theorem writeStr_length (s : Str) : s.length + 1 ≤ (writeStr s).length := by
  unfold writeStr
  rw [List.length_append]
  have := writeCS_length_pos s.length
  omega

theorem pairsBytes_cons (p : Str × Str) (m : SMap) :
    pairsBytes (p :: m) = writeStr p.1 ++ (writeStr p.2 ++ pairsBytes m) := by
  simp [pairsBytes]

theorem pairsBytes_ge (m : SMap) : m.length ≤ (pairsBytes m).length := by
  induction m with
  | nil => simp [pairsBytes]
  | cons p m ih =>
    rw [pairsBytes_cons, List.length_append, List.length_append, List.length_cons]
    have h1 := writeStr_length p.1
    omega

theorem str_le_pairsBytes (m : SMap) (q : Str × Str) (hq : q ∈ m) :
    q.1.length ≤ (pairsBytes m).length ∧ q.2.length ≤ (pairsBytes m).length := by
  induction m with
  | nil => simp at hq
  | cons p m ih =>
    rw [pairsBytes_cons, List.length_append, List.length_append]
    rcases List.mem_cons.mp hq with rfl | hmem
    · have h1 := writeStr_length q.1
      have h2 := writeStr_length q.2
      omega
    · have := ih hmem
      omega

theorem serMap_bounds_of_le (m : SMap) (B : Nat)
    (h : (serMapBytes m).length ≤ B) :
    m.length ≤ B ∧ ∀ q ∈ m, q.1.length ≤ B ∧ q.2.length ≤ B := by
  unfold serMapBytes at h
  rw [List.length_append] at h
  have hp := pairsBytes_ge m
  refine ⟨by omega, ?_⟩
  intro q hq
  have := str_le_pairsBytes m q hq
  omega

theorem SMap.insert_ne_nil (k v : Str) (m : SMap) : SMap.insert k v m ≠ [] := by
  cases m with
  | nil => simp [SMap.insert]
  | cons p t =>
    unfold SMap.insert
    by_cases h1 : k < p.1
    · simp [h1]
    · by_cases h2 : p.1 < k <;> simp [h1, h2]

theorem SMap.erase_of_not_mem (k : Str) (m : SMap) (h : SMap.mem k m = false) :
    SMap.erase k m = m := by
  induction m with
  | nil => rfl
  | cons p t ih =>
    simp only [SMap.mem, SMap.lookup] at h
    by_cases hp : p.1 = k
    · rw [if_pos hp] at h
      simp at h
    · rw [if_neg hp] at h
      unfold SMap.erase
      rw [if_neg hp, ih (by simp [SMap.mem, h])]

theorem ReadOrderPos_WriteOrderPos_full (i : Int) (m : SMap)
    (hn : i = -1 → SMap.mem kN m = false) :
    ReadOrderPos (WriteOrderPos i m) = i := by
  by_cases hop : i = -1
  · unfold WriteOrderPos
    rw [if_pos hop, ReadOrderPos_of_not_mem m (hn hop), hop]
  · exact ReadOrderPos_WriteOrderPos i m hop

theorem erase_kN_WriteOrderPos (i : Int) (m : SMap) (hsort : SMapSorted m) :
    SMap.erase kN (WriteOrderPos i m) = SMap.erase kN m := by
  unfold WriteOrderPos
  by_cases hop : i = -1
  · rw [if_pos hop]
  · rw [if_neg hop]
    apply SMap.ext_lookup
    · exact SMap.erase_sorted _ _ (SMap.insert_sorted _ _ _ hsort)
    · exact SMap.erase_sorted _ _ hsort
    · intro k
      rw [SMap.lookup_erase, SMap.lookup_erase]
      by_cases hk : k = kN
      · rw [if_pos hk, if_pos hk]
      · rw [if_neg hk, if_neg hk, SMap.lookup_insert_ne _ _ _ _ hk]

theorem WriteOrderPos_erase_kN (i : Int) (m : SMap) (hsort : SMapSorted m)
    (hn : i = -1 → SMap.mem kN m = false) :
    WriteOrderPos i (SMap.erase kN m) = WriteOrderPos i m := by
  unfold WriteOrderPos
  by_cases hop : i = -1
  · rw [if_pos hop, if_pos hop, SMap.erase_of_not_mem kN m (hn hop)]
  · rw [if_neg hop, if_neg hop]
    apply SMap.ext_lookup
    · exact SMap.insert_sorted _ _ _ (SMap.erase_sorted _ _ hsort)
    · exact SMap.insert_sorted _ _ _ hsort
    · intro k
      by_cases hk : k = kN
      · rw [hk, SMap.lookup_insert_self, SMap.lookup_insert_self]
      · rw [SMap.lookup_insert_ne _ _ _ _ hk, SMap.lookup_insert_ne _ _ _ _ hk,
          SMap.lookup_erase, if_neg hk]

/-- A further `Serialize` of a round-tripped entry produces the same
stream. -/
theorem acSerialize_congr (ver : Int) (e e' : CAccountingEntry)
    (h1 : e'.nCreditDebit = e.nCreditDebit) (h2 : e'.nTime = e.nTime)
    (h3 : e'.strOtherAccount = e.strOtherAccount)
    (h4 : e'.strComment = e.strComment)
    (h5 : e'.mapValue = SMap.erase kN e.mapValue)
    (h6 : e'.nOrderPos = e.nOrderPos)
    (h7 : e'.ssExtra = e.ssExtra)
    (hsort : SMapSorted e.mapValue)
    (hn : e.nOrderPos = -1 → SMap.mem kN e.mapValue = false) :
    CAccountingEntry.Serialize ver e' = CAccountingEntry.Serialize ver e := by
  unfold CAccountingEntry.Serialize acCommentCopy acMapValueCopy
  rw [h1, h2, h3, h4, h5, h6, h7, WriteOrderPos_erase_kN e.nOrderPos e.mapValue hsort hn]

/-- C9 (amended): for every accounting entry whose map satisfies the
`std::map` representation invariant and does not carry the reserved key
`"n"` while `nOrderPos = -1`, whose `strComment` contains no NUL byte, and
whose `strOtherAccount` and written comment field fit the 65536-byte
`LIMITED_STRING` read limit, `Unserialize ∘ Serialize` restores
`nCreditDebit`, `nTime`, `strOtherAccount`, `strComment` (truncated at the
NUL separator), `mapValue` (with `"n"` removed) and `nOrderPos`, carries
the post-map bytes `_ssExtra` through unchanged, and a further `Serialize`
reproduces the original stream. -/
theorem c9_acentry_serialize_roundtrip (ver : Int) (e : CAccountingEntry)
    (hsort : SMapSorted e.mapValue)
    (hnul : (0 : Nat) ∉ e.strComment)
    (hoa : e.strOtherAccount.length ≤ 65536)
    (hcm : (acCommentCopy e).length ≤ 65536)
    (hn : e.nOrderPos = -1 → SMap.mem kN e.mapValue = false) :
    ∃ e' : CAccountingEntry,
      CAccountingEntry.Unserialize (CAccountingEntry.Serialize ver e) = some (e', []) ∧
      e'.nCreditDebit = e.nCreditDebit ∧
      e'.nTime = e.nTime ∧
      e'.strOtherAccount = e.strOtherAccount ∧
      e'.strComment = e.strComment ∧
      e'.mapValue = SMap.erase kN e.mapValue ∧
      e'.nOrderPos = e.nOrderPos ∧
      e'.ssExtra = e.ssExtra ∧
      CAccountingEntry.Serialize ver e' = CAccountingEntry.Serialize ver e := by
  by_cases hcc : acMapValueCopy e ≠ [] ∨ e.ssExtra ≠ []
  · have hccEq : acCommentCopy e =
        e.strComment ++ 0 :: (serMapBytes (acMapValueCopy e) ++ e.ssExtra) := by
      unfold acCommentCopy
      rw [if_pos hcc]
    have hserlen : (serMapBytes (acMapValueCopy e)).length ≤ 65536 := by
      rw [hccEq] at hcm
      simp only [List.length_append, List.length_cons] at hcm
      omega
    have hbounds := serMap_bounds_of_le (acMapValueCopy e) 65536 hserlen
    have hsortedCopy : SMapSorted (acMapValueCopy e) :=
      WriteOrderPos_sorted _ _ hsort
    have hdeser : deserMapBytes ((acCommentCopy e).drop (e.strComment.length + 1)) =
        some (acMapValueCopy e, e.ssExtra) := by
      rw [hccEq]
      have hsplit : e.strComment ++ 0 :: (serMapBytes (acMapValueCopy e) ++ e.ssExtra) =
          (e.strComment ++ [0]) ++ (serMapBytes (acMapValueCopy e) ++ e.ssExtra) := by
        simp
      have hlen1 : e.strComment.length + 1 = (e.strComment ++ [0]).length := by simp
      rw [hsplit, hlen1, List.drop_left]
      refine deserMapBytes_serMapBytes (acMapValueCopy e) e.ssExtra hsortedCopy ?_ ?_
      · have := hbounds.1
        omega
      · intro q hq
        have := hbounds.2 q hq
        omega
    have hnp : nulPos (acCommentCopy e) = some e.strComment.length := by
      rw [hccEq]
      exact nulPos_sep _ _ hnul
    have htake : (acCommentCopy e).take e.strComment.length = e.strComment := by
      rw [hccEq]
      exact List.take_left e.strComment _
    have hunser : CAccountingEntry.Unserialize (CAccountingEntry.Serialize ver e) =
        some (acReadSep e.nCreditDebit e.nTime e.strOtherAccount (acCommentCopy e)
          e.strComment.length (acMapValueCopy e) e.ssExtra, []) := by
      show (if e.strOtherAccount.length ≤ 65536 ∧ (acCommentCopy e).length ≤ 65536 then
          match nulPos (acCommentCopy e) with
          | none => some (acReadNoSep e.nCreditDebit e.nTime e.strOtherAccount
              (acCommentCopy e), ([] : List Tok))
          | some idx =>
            match deserMapBytes ((acCommentCopy e).drop (idx + 1)) with
            | none => none
            | some (mv, extra) => some (acReadSep e.nCreditDebit e.nTime
                e.strOtherAccount (acCommentCopy e) idx mv extra, ([] : List Tok))
        else none) =
        some (acReadSep e.nCreditDebit e.nTime e.strOtherAccount (acCommentCopy e)
          e.strComment.length (acMapValueCopy e) e.ssExtra, ([] : List Tok))
      rw [if_pos ⟨hoa, hcm⟩, hnp]
      show (match deserMapBytes ((acCommentCopy e).drop (e.strComment.length + 1)) with
        | none => none
        | some (mv, extra) => some (acReadSep e.nCreditDebit e.nTime
            e.strOtherAccount (acCommentCopy e) e.strComment.length mv extra,
            ([] : List Tok))) =
        some (acReadSep e.nCreditDebit e.nTime e.strOtherAccount (acCommentCopy e)
          e.strComment.length (acMapValueCopy e) e.ssExtra, ([] : List Tok))
      rw [hdeser]
    refine ⟨_, hunser, rfl, rfl, rfl, ?_, ?_, ?_, rfl, ?_⟩
    · exact htake
    · show SMap.erase kN (acMapValueCopy e) = SMap.erase kN e.mapValue
      exact erase_kN_WriteOrderPos e.nOrderPos e.mapValue hsort
    · show ReadOrderPos (acMapValueCopy e) = e.nOrderPos
      exact ReadOrderPos_WriteOrderPos_full e.nOrderPos e.mapValue hn
    · refine acSerialize_congr ver e _ rfl rfl rfl htake ?_ ?_ rfl hsort hn
      · exact erase_kN_WriteOrderPos e.nOrderPos e.mapValue hsort
      · exact ReadOrderPos_WriteOrderPos_full e.nOrderPos e.mapValue hn
  · push_neg at hcc
    obtain ⟨hcopy, hextra⟩ := hcc
    have hccEq : acCommentCopy e = e.strComment := by
      unfold acCommentCopy
      rw [if_neg (by push_neg; exact ⟨hcopy, hextra⟩)]
    have hop : e.nOrderPos = -1 := by
      by_contra hop
      refine SMap.insert_ne_nil kN (i64tostr e.nOrderPos) e.mapValue ?_
      have hcopy2 : acMapValueCopy e =
          SMap.insert kN (i64tostr e.nOrderPos) e.mapValue := by
        unfold acMapValueCopy WriteOrderPos
        rw [if_neg hop]
      rw [← hcopy2]
      exact hcopy
    have hmv : e.mapValue = [] := by
      have hcopy2 : acMapValueCopy e = e.mapValue := by
        unfold acMapValueCopy WriteOrderPos
        rw [if_pos hop]
      rw [← hcopy2]
      exact hcopy
    have hnp : nulPos (acCommentCopy e) = none := by
      rw [hccEq]
      exact nulPos_no_nul _ hnul
    have hunser : CAccountingEntry.Unserialize (CAccountingEntry.Serialize ver e) =
        some (acReadNoSep e.nCreditDebit e.nTime e.strOtherAccount (acCommentCopy e), []) := by
      show (if e.strOtherAccount.length ≤ 65536 ∧ (acCommentCopy e).length ≤ 65536 then
          match nulPos (acCommentCopy e) with
          | none => some (acReadNoSep e.nCreditDebit e.nTime e.strOtherAccount
              (acCommentCopy e), ([] : List Tok))
          | some idx =>
            match deserMapBytes ((acCommentCopy e).drop (idx + 1)) with
            | none => none
            | some (mv, extra) => some (acReadSep e.nCreditDebit e.nTime
                e.strOtherAccount (acCommentCopy e) idx mv extra, ([] : List Tok))
        else none) =
        some (acReadNoSep e.nCreditDebit e.nTime e.strOtherAccount (acCommentCopy e),
          ([] : List Tok))
      rw [if_pos ⟨hoa, hcm⟩, hnp]
    have hrop : ReadOrderPos ([] : SMap) = e.nOrderPos := by
      rw [ReadOrderPos_of_not_mem [] (by rfl), hop]
    refine ⟨_, hunser, rfl, rfl, rfl, hccEq, ?_, hrop, hextra.symm, ?_⟩
    · show ([] : SMap) = SMap.erase kN e.mapValue
      rw [hmv]
      rfl
    · refine acSerialize_congr ver e _ rfl rfl rfl hccEq ?_ hrop hextra.symm hsort hn
      · show ([] : SMap) = SMap.erase kN e.mapValue
        rw [hmv]
        rfl

/-- C9 counterexample: an entry whose comment contains no NUL byte but is
65537 bytes long serializes fine, yet `Unserialize` fails on the result
(the comment exceeds the 65536-byte `LIMITED_STRING` read limit), so the
round trip does not restore the entry. -/
theorem acUnserialize_fails_of_long (v cd tm : Int) (oa cm : Str) (rest : List Tok)
    (h : ¬(oa.length ≤ 65536 ∧ cm.length ≤ 65536)) :
    CAccountingEntry.Unserialize (Tok.i32 v :: Tok.i64 cd :: Tok.i64 tm ::
      Tok.str oa :: Tok.str cm :: rest) = none := by
  show (if oa.length ≤ 65536 ∧ cm.length ≤ 65536 then
      match nulPos cm with
      | none => some (acReadNoSep cd tm oa cm, rest)
      | some idx =>
        match deserMapBytes (cm.drop (idx + 1)) with
        | none => none
        | some (mv, extra) => some (acReadSep cd tm oa cm idx mv extra, rest)
    else none) = none
  rw [if_neg h]

theorem c9_acentry_roundtrip_counterexample :
    (0 : Nat) ∉ c9big.strComment ∧
    CAccountingEntry.Unserialize (CAccountingEntry.Serialize 0 c9big) = none := by
  have hccEq : acCommentCopy c9big = List.replicate 65537 97 := by
    unfold acCommentCopy
    rw [if_neg (by push_neg; exact ⟨rfl, rfl⟩)]
    rfl
  constructor
  · intro hmem
    have h97 := List.eq_of_mem_replicate hmem
    omega
  · have hser : CAccountingEntry.Serialize 0 c9big =
        Tok.i32 0 :: Tok.i64 0 :: Tok.i64 0 :: Tok.str [] ::
          Tok.str (List.replicate 65537 97) :: [] := by
      unfold CAccountingEntry.Serialize
      rw [hccEq]
      rfl
    rw [hser]
    refine acUnserialize_fails_of_long 0 0 0 [] (List.replicate 65537 97) [] ?_
    intro hcontra
    have hlen := hcontra.2
    rw [List.length_replicate] at hlen
    omega

/-- C9 witness: the amended round trip at the concrete entry `c9wit` with
stream version 4. -/
theorem c9_acentry_serialize_roundtrip_witness :
    SMapSorted c9wit.mapValue ∧ (0 : Nat) ∉ c9wit.strComment ∧
    (∃ e' : CAccountingEntry,
      CAccountingEntry.Unserialize (CAccountingEntry.Serialize 4 c9wit) = some (e', []) ∧
      e'.nCreditDebit = c9wit.nCreditDebit ∧
      e'.nTime = c9wit.nTime ∧
      e'.strOtherAccount = c9wit.strOtherAccount ∧
      e'.strComment = c9wit.strComment ∧
      e'.mapValue = SMap.erase kN c9wit.mapValue ∧
      e'.nOrderPos = c9wit.nOrderPos ∧
      e'.ssExtra = c9wit.ssExtra ∧
      CAccountingEntry.Serialize 4 e' = CAccountingEntry.Serialize 4 c9wit) :=
  ⟨by decide, by decide,
    c9_acentry_serialize_roundtrip 4 c9wit (by decide) (by decide) (by decide)
      (by decide) (by decide)⟩

end WalletModel
